import Mathlib

/-!
# buggengo: extraction of rewrite candidates

A shallow embedding of `main.go` (the functions `main`, `formatCode` and
`placeholderBody`) together with the parts of the Go standard library that the
program drives: `filepath.Walk`, `strings.HasSuffix`, `parser.ParseFile`,
`ast.Inspect`, `token.FileSet.Position`, `format.Node` and `json.Marshal`.

Modelling decisions.

* The syntax tree of a file is shared mutable state in the program.  It is
  modelled by explicit state passing: the state of the traversal holds the
  current `File`, and a `*ast.FuncDecl` is the index of the declaration in
  `File.Decls`.  An assignment through the pointer is `File.modify`.
* Positions are relative to the file that contains them (the first byte of a
  file has position 1, `NoPos` is 0), so the file set is represented, for each
  file, by the line table `TokenFile` that the scanner recorded for it,
  line directives included.
* What the parser and the printer compute is not part of the repository.  They
  are fields of `Env`, functions of their arguments: the printer reads the node
  it is given and does not change the tree.  Every theorem holds for every
  `Env`.
* The directory tree is an `FsNode`; `Walk` lists the calls that
  `filepath.Walk` makes to the walk function, errors of `os.Lstat` and of
  reading a directory included.  The walk function of `main` returns nil on
  every path, so the walk is never cut short.
* A Go slice that may be nil is an `Option (List _)`, `none` being nil.
-/

namespace Buggengo

/-! ## go/token -/

/-- A `token.Pos`. -/
abbrev Pos := Nat

/-- The zero value of `token.Pos`. -/
def NoPos : Pos := 0

/-- Go: `Pos.IsValid`. -/
def IsValid (p : Pos) : Bool := p != NoPos

/-- The literal kinds of `token.Token`. -/
inductive Token where
  | INT | FLOAT | IMAG | CHAR | STRING
  deriving DecidableEq, Repr

/-- One entry of `token.File.infos`: from byte offset `Offset` on, lines are
counted from `Line` (recorded by the scanner for a `//line` directive). -/
structure lineInfo where
  Offset : Nat
  Line : Int
  deriving DecidableEq, Repr

/-- The `token.File` of one source file: its size, the byte offsets at which
its lines start (ascending, the first is 0) and the line directives. -/
structure TokenFile where
  size : Nat
  lines : List Nat
  infos : List lineInfo
  deriving DecidableEq, Repr

/-- The value `searchInts(a, x) + 1`: the number of entries of the ascending list `a`
that are at most `x`; 0 when `searchInts` returns -1. -/
def searchInts (a : List Nat) (x : Nat) : Nat := a.countP (fun o => decide (o ≤ x))

/-- Go: `searchLineInfos`: the last entry of the ascending list whose offset is at
most `x`. -/
def searchLineInfos (a : List lineInfo) (x : Nat) : Option lineInfo :=
  (a.filter (fun i => decide (i.Offset ≤ x))).getLast?

/-- The line that `token.File.unpack(offset, true)` returns. -/
def unpackLine (f : TokenFile) (offset : Nat) : Int :=
  let line : Int := (searchInts f.lines offset : Nat)
  match searchLineInfos f.infos offset with
  | none => line
  | some alt =>
    if searchInts f.lines alt.Offset = 0 then line
    else alt.Line + (line - (searchInts f.lines alt.Offset : Nat))

/-- Go: `fset.Position(p).Line`: 0 for `NoPos` and for a position outside the file,
else the line of the offset `p - base`, adjusted by line directives. -/
def PositionLine (f : TokenFile) (p : Pos) : Int :=
  if p = NoPos ∨ f.size + 1 < p then 0 else unpackLine f (p - 1)

/-! ## go/ast -/

/-- An `ast.Comment`. -/
structure Comment where
  Slash : Pos
  Text : String
  deriving DecidableEq, Repr

/-- An `ast.CommentGroup`. -/
abbrev CommentGroup := List Comment

/-- An `ast.Ident`. -/
structure Ident where
  NamePos : Pos
  Name : String
  deriving DecidableEq, Repr

mutual
/-- Expressions.  `Other` stands for every node type that is not listed on its
own (also specs and types), with the values of its `Pos()` and `End()` and its
child nodes. -/
inductive Expr where
  | Ident (id : Ident)
  | BasicLit (ValuePos : Pos) (Kind : Token) (Value : String)
  | CallExpr (Fun : Expr) (Lparen : Pos) (Args : List Expr) (Ellipsis : Pos) (Rparen : Pos)
  | FuncLit (Type_ : FuncType) (Body : BlockStmt)
  | Other (kind : String) (pos end_ : Pos) (exprs : List Expr) (stmts : List Stmt)
/-- Statements. -/
inductive Stmt where
  | ExprStmt (X : Expr)
  | Block (b : BlockStmt)
  | Other (kind : String) (pos end_ : Pos) (exprs : List Expr) (stmts : List Stmt)
/-- An `ast.BlockStmt`. -/
inductive BlockStmt where
  | mk (Lbrace : Pos) (List_ : List Stmt) (Rbrace : Pos)
/-- An `ast.Field` of a parameter, result or receiver list. -/
inductive Field where
  | mk (Names : List Ident) (Type_ : Option Expr)
/-- An `ast.FieldList`. -/
inductive FieldList where
  | mk (Opening : Pos) (List_ : List Field) (Closing : Pos)
/-- An `ast.FuncType`. -/
inductive FuncType where
  | mk (Func : Pos) (TypeParams : Option FieldList) (Params : FieldList)
      (Results : Option FieldList)
end

/-- An `ast.FuncDecl`. -/
structure FuncDecl where
  Doc : Option CommentGroup
  Recv : Option FieldList
  Name : Ident
  Type_ : FuncType
  Body : Option BlockStmt

/-- An `ast.GenDecl` (import, const, type or var). -/
structure GenDecl where
  Doc : Option CommentGroup
  TokPos : Pos
  Tok : String
  Specs : List Expr

/-- An `ast.Decl`. -/
inductive Decl where
  | funcDecl (d : FuncDecl)
  | genDecl (d : GenDecl)
  | badDecl (From To : Pos)

/-- An `ast.File`.  `Comments` is the list of all comments of the file. -/
structure File where
  Doc : Option CommentGroup
  Package : Pos
  Name : Ident
  Decls : List Decl
  Comments : List CommentGroup

/-! ### Node positions (`Pos()` and `End()` of go/ast) -/

mutual
/-- Go: `Expr.Pos()`. -/
def Expr.Pos : Expr → Buggengo.Pos
  | .Ident id => id.NamePos
  | .BasicLit p _ _ => p
  | .CallExpr fn _ _ _ _ => fn.Pos
  | .FuncLit t _ => t.Pos
  | .Other _ p _ _ _ => p
/-- Go: `Field.Pos()`: the first name, else the type, else `NoPos`. -/
def Field.Pos : Field → Buggengo.Pos
  | .mk (n :: _) _ => n.NamePos
  | .mk [] (some t) => t.Pos
  | .mk [] none => NoPos
/-- Go: `FieldList.Pos()`. -/
def FieldList.Pos : FieldList → Buggengo.Pos
  | .mk o [] _ => if IsValid o then o else NoPos
  | .mk o (f :: _) _ => if IsValid o then o else f.Pos
/-- Go: `FuncType.Pos()`: the `func` keyword, else the parameter list. -/
def FuncType.Pos : FuncType → Buggengo.Pos
  | .mk fn _ params _ => if IsValid fn then fn else params.Pos
end

mutual
/-- Go: `Expr.End()`.  For a basic literal this is `ValuePos + len(Value)`, the
end of a literal that carries no recorded end, as those of `placeholderBody`;
where the library records the end of a parsed literal the two differ only for
a raw string with a carriage return.  No literal end enters
`FuncDecl.End()` of a declaration whose closing positions are valid. -/
def Expr.End : Expr → Buggengo.Pos
  | .Ident id => id.NamePos + id.Name.utf8ByteSize
  | .BasicLit p _ v => p + v.utf8ByteSize
  | .CallExpr _ _ _ _ r => r + 1
  | .FuncLit _ b => b.End
  | .Other _ _ e _ _ => e
/-- Go: `Stmt.End()`. -/
def Stmt.End : Stmt → Buggengo.Pos
  | .ExprStmt x => x.End
  | .Block b => b.End
  | .Other _ _ e _ _ => e
/-- The `End()` of the last statement of a list, `dflt` for the empty list. -/
def lastStmtEnd (dflt : Buggengo.Pos) : List Stmt → Buggengo.Pos
  | [] => dflt
  | [s] => s.End
  | _ :: s :: ss => lastStmtEnd dflt (s :: ss)
/-- Go: `BlockStmt.End()`: just past the closing brace. -/
def BlockStmt.End : BlockStmt → Buggengo.Pos
  | .mk l list r => if IsValid r then r + 1 else lastStmtEnd (l + 1) list
end

/-- The `Ident.End()` of the last name of a field. -/
def lastNameEnd : List Ident → Buggengo.Pos
  | [] => NoPos
  | [n] => n.NamePos + n.Name.utf8ByteSize
  | _ :: n :: ns => lastNameEnd (n :: ns)

/-- Go: `Field.End()` (function parameters carry no tag): the type, else the last
name, else `NoPos`. -/
def Field.End : Field → Buggengo.Pos
  | .mk _ (some t) => t.End
  | .mk names none => lastNameEnd names

/-- The `End()` of the last field of a list, `NoPos` for the empty list. -/
def lastFieldEnd : List Field → Buggengo.Pos
  | [] => NoPos
  | [f] => f.End
  | _ :: f :: fs => lastFieldEnd (f :: fs)

/-- Go: `FieldList.End()`. -/
def FieldList.End : FieldList → Buggengo.Pos
  | .mk _ list c => if IsValid c then c + 1 else lastFieldEnd list

/-- Go: `FuncType.End()`: the end of the results, else of the parameters. -/
def FuncType.End : FuncType → Buggengo.Pos
  | .mk _ _ _ (some r) => r.End
  | .mk _ _ params none => params.End

/-- Go: `FuncDecl.Pos()`. -/
def FuncDecl.Pos (d : FuncDecl) : Buggengo.Pos := d.Type_.Pos

/-- Go: `FuncDecl.End()`. -/
def FuncDecl.End (d : FuncDecl) : Buggengo.Pos :=
  match d.Body with
  | some b => b.End
  | none => d.Type_.End

/-! ### Traversal (`ast.Inspect`) -/

/-- The `ast.Node` values that the traversal hands to its callback.  A
function declaration is handed over as a pointer, the index of the declaration
in `File.Decls`; `nil` is the call that closes a node. -/
inductive Node where
  | nil
  | File
  | FuncDecl (i : Nat)
  | GenDecl (d : GenDecl)
  | BadDecl (From To : Pos)
  | CommentGroup (g : CommentGroup)
  | Comment (c : Comment)
  | Ident (id : Ident)
  | Expr (e : Expr)
  | Stmt (s : Stmt)
  | BlockStmt (b : BlockStmt)
  | Field (f : Field)
  | FieldList (f : FieldList)
  | FuncType (f : FuncType)

/-- One step of `ast.Walk` with the visitor of `ast.Inspect`: call `f` on the
node; when it returns true walk the children and then call `f(nil)`, when it
returns false skip the children of this node. -/
def visit {σ : Type} (f : Node → σ → Bool × σ) (n : Node) (children : σ → σ) (s : σ) : σ :=
  match f n s with
  | (false, s1) => s1
  | (true, s1) => (f Node.nil (children s1)).2

/-- Walk of an identifier. -/
def walkIdent {σ : Type} (f : Node → σ → Bool × σ) (id : Ident) : σ → σ :=
  visit f (.Ident id) (fun s => s)

/-- Walk of a list of identifiers. -/
def walkIdents {σ : Type} (f : Node → σ → Bool × σ) : List Ident → σ → σ
  | [], s => s
  | x :: xs, s => walkIdents f xs (walkIdent f x s)

/-- Walk of the comments of a group. -/
def walkComments {σ : Type} (f : Node → σ → Bool × σ) : List Comment → σ → σ
  | [], s => s
  | c :: cs, s => walkComments f cs (visit f (.Comment c) (fun s => s) s)

/-- Walk of a `Doc` field, which may be nil. -/
def walkDoc {σ : Type} (f : Node → σ → Bool × σ) : Option CommentGroup → σ → σ
  | none, s => s
  | some g, s => visit f (.CommentGroup g) (walkComments f g) s

mutual
/-- Walk of an expression. -/
def walkExpr {σ : Type} (f : Node → σ → Bool × σ) : Expr → σ → σ
  | .Ident id => visit f (.Expr (.Ident id)) (fun s => s)
  | .BasicLit p k v => visit f (.Expr (.BasicLit p k v)) (fun s => s)
  | .CallExpr fn l args e r =>
    visit f (.Expr (.CallExpr fn l args e r)) (fun s => walkExprs f args (walkExpr f fn s))
  | .FuncLit t b => visit f (.Expr (.FuncLit t b)) (fun s => walkBlock f b (walkFuncType f t s))
  | .Other k p e es ss =>
    visit f (.Expr (.Other k p e es ss)) (fun s => walkStmts f ss (walkExprs f es s))
/-- Walk of a list of expressions. -/
def walkExprs {σ : Type} (f : Node → σ → Bool × σ) : List Expr → σ → σ
  | [], s => s
  | e :: es, s => walkExprs f es (walkExpr f e s)
/-- Walk of a statement.  A block that stands as a statement is one node, the
`*ast.BlockStmt` itself, and is handed to the callback once. -/
def walkStmt {σ : Type} (f : Node → σ → Bool × σ) : Stmt → σ → σ
  | .ExprStmt x => visit f (.Stmt (.ExprStmt x)) (walkExpr f x)
  | .Block b => walkBlock f b
  | .Other k p e es ss =>
    visit f (.Stmt (.Other k p e es ss)) (fun s => walkStmts f ss (walkExprs f es s))
/-- Walk of a list of statements. -/
def walkStmts {σ : Type} (f : Node → σ → Bool × σ) : List Stmt → σ → σ
  | [], s => s
  | x :: xs, s => walkStmts f xs (walkStmt f x s)
/-- Walk of a block. -/
def walkBlock {σ : Type} (f : Node → σ → Bool × σ) : BlockStmt → σ → σ
  | .mk lb l rb => visit f (.BlockStmt (.mk lb l rb)) (walkStmts f l)
/-- Walk of a field: its names, then its type. -/
def walkField {σ : Type} (f : Node → σ → Bool × σ) : Field → σ → σ
  | .mk names none => visit f (.Field (.mk names none)) (walkIdents f names)
  | .mk names (some t) =>
    visit f (.Field (.mk names (some t))) (fun s => walkExpr f t (walkIdents f names s))
/-- Walk of a list of fields. -/
def walkFields {σ : Type} (f : Node → σ → Bool × σ) : List Field → σ → σ
  | [], s => s
  | x :: xs, s => walkFields f xs (walkField f x s)
/-- Walk of a field list. -/
def walkFieldList {σ : Type} (f : Node → σ → Bool × σ) : FieldList → σ → σ
  | .mk o l c => visit f (.FieldList (.mk o l c)) (walkFields f l)
/-- Walk of a field list that may be nil. -/
def walkFieldListOpt {σ : Type} (f : Node → σ → Bool × σ) : Option FieldList → σ → σ
  | none, s => s
  | some fl, s => walkFieldList f fl s
/-- Walk of a function type: type parameters, parameters, results. -/
def walkFuncType {σ : Type} (f : Node → σ → Bool × σ) : FuncType → σ → σ
  | .mk fn tp p r =>
    visit f (.FuncType (.mk fn tp p r))
      (fun s => walkFieldListOpt f r (walkFieldList f p (walkFieldListOpt f tp s)))
end

/-- Walk of a body that may be nil. -/
def walkBody {σ : Type} (f : Node → σ → Bool × σ) : Option BlockStmt → σ → σ
  | none, s => s
  | some b, s => walkBlock f b s

/-- Walk of the children of a function declaration: `Doc`, `Recv`, `Name`,
`Type`, `Body`. -/
def walkFuncDeclChildren {σ : Type} (f : Node → σ → Bool × σ) (d : FuncDecl) (s : σ) : σ :=
  walkBody f d.Body (walkFuncType f d.Type_ (walkIdent f d.Name
    (walkFieldListOpt f d.Recv (walkDoc f d.Doc s))))

/-- Walk of the declaration that `Decls[i]` points to.  The fields of a
function declaration are read after the callback has returned, from the tree
as the callback left it (`tree` reads the tree out of the state). -/
def walkDecl {σ : Type} (tree : σ → File) (f : Node → σ → Bool × σ) (i : Nat) (s : σ) : σ :=
  match (tree s).Decls[i]? with
  | none => s
  | some (.funcDecl _) =>
    visit f (.FuncDecl i) (fun s1 =>
      match (tree s1).Decls[i]? with
      | some (.funcDecl d) => walkFuncDeclChildren f d s1
      | _ => s1) s
  | some (.genDecl d) => visit f (.GenDecl d) (fun s1 => walkExprs f d.Specs (walkDoc f d.Doc s1)) s
  | some (.badDecl a b) => visit f (.BadDecl a b) (fun s1 => s1) s

/-- Go: `ast.Inspect(sourceFile, f)`: depth-first traversal of the file: `Doc`,
`Name`, then the declarations in order (the comment list is not walked). -/
def Inspect {σ : Type} (tree : σ → File) (f : Node → σ → Bool × σ) (s : σ) : σ :=
  visit f .File (fun s1 =>
    (List.range (tree s1).Decls.length).foldl (fun s i => walkDecl tree f i s)
      (walkIdent f (tree s1).Name (walkDoc f (tree s1).Doc s1))) s

/-! ## The libraries the program calls -/

/-- What reading and parsing one file gives: a tree together with the line
table recorded in the file set, or an error, with the tree built so far when
the source could be read (`parser.ParseFile` then returns both). -/
inductive ParseResult where
  | ok (file : File) (fs : TokenFile)
  | error (fragment : Option File) (err : String)

/-- The node handed to `format.Node`, as the tree stands at the time of the
call. -/
inductive Printable where
  | FuncDecl (d : FuncDecl)
  | File (f : File)

/-- The library behaviour that the program depends on and that lies outside
the repository.
* `parse filename`: the result of reading and parsing the file at `filename`
  with every comment kept, which is what go/parser builds under the mode
  `ParseComments`;
* `formatNode fs node`: the text, or the error, of `format.Node(_, fs, node)`;
* `jsonString`: the encoding of a string value by encoding/json. -/
structure Env where
  parse : String → ParseResult
  formatNode : TokenFile → Printable → Except String String
  jsonString : String → String

/-- The mode bit `parser.ParseComments` (`1 << 2`). -/
def ParseComments : Nat := 4

/-- A declaration as the parser builds it when comments are not collected. -/
def Decl.stripComments : Decl → Decl
  | .funcDecl d => .funcDecl { d with Doc := none }
  | .genDecl d => .genDecl { d with Doc := none }
  | .badDecl a b => .badDecl a b

/-- A file as the parser builds it when comments are not collected: no `Doc`
field is set and `Comments` is empty. -/
def File.stripComments (f : File) : File :=
  { f with Doc := none, Decls := f.Decls.map Decl.stripComments, Comments := [] }

/-- Go: `parser.ParseFile(fset, filename, nil, mode)`, as far as the mode bit
`ParseComments` goes: without it the scanner drops the comments, so none
reaches the tree; positions and the line table are the same in both modes. -/
def ParseFile (env : Env) (filename : String) (mode : Nat) : ParseResult :=
  match env.parse filename with
  | .ok file fs => .ok (if mode &&& ParseComments = 0 then file.stripComments else file) fs
  | .error fragment err =>
    .error (if mode &&& ParseComments = 0 then fragment.map File.stripComments else fragment) err

/-- Go: `strings.HasSuffix`. -/
def HasSuffix (s suffix : String) : Bool := suffix.data.isSuffixOf s.data

/-! ## main.go -/

instance : Inhabited FuncDecl :=
  ⟨{ Doc := none, Recv := none, Name := { NamePos := NoPos, Name := "" },
     Type_ := .mk NoPos none (.mk NoPos [] NoPos) none, Body := none }⟩

/-- The function declaration that the pointer `i` refers to.  Every pointer the
program holds refers to a function declaration of the file; elsewhere the
model reads a default value. -/
def funcAt (file : File) (i : Nat) : FuncDecl :=
  match file.Decls[i]? with
  | some (.funcDecl d) => d
  | _ => default

/-- The declaration list after an assignment through the pointer `i`. -/
def setDecl (g : FuncDecl → FuncDecl) : Nat → List Decl → List Decl
  | _, [] => []
  | 0, .funcDecl d :: ds => .funcDecl (g d) :: ds
  | 0, d :: ds => d :: ds
  | i + 1, d :: ds => d :: setDecl g i ds

/-- The file after an assignment through the pointer `i`. -/
def File.modify (file : File) (i : Nat) (g : FuncDecl → FuncDecl) : File :=
  { file with Decls := setDecl g i file.Decls }

/-- The `nodeToOutput` argument of `formatCode`: the function declaration
itself or the file that contains it. -/
inductive NodeRef where
  | FuncDecl (i : Nat)
  | File

/-- The value a node reference has in the current tree. -/
def deref (file : File) : NodeRef → Printable
  | .FuncDecl i => .FuncDecl (funcAt file i)
  | .File => .File file

/-- Go: `formatCode(fs, nodeToOutput, funcToModify, modFunc)` on the tree `tree`:
the result of the printer and the tree it leaves behind.  The body is saved,
`modFunc` is applied, the node is printed, and the deferred assignment puts
the saved body back on both return paths. -/
def formatCode (env : Env) (fs : TokenFile) (tree : File) (nodeToOutput : NodeRef)
    (funcToModify : Nat) (modFunc : FuncDecl → FuncDecl) : Except String String × File :=
  let originalBody := (funcAt tree funcToModify).Body
  let modified := tree.modify funcToModify modFunc
  let output := env.formatNode fs (deref modified nodeToOutput)
  let restored := modified.modify funcToModify (fun d => { d with Body := originalBody })
  match output with
  | .error err => (.error err, restored)
  | .ok text => (.ok text, restored)

/-- Go: `placeholderBody()`: a block with the one statement
`panic("TODO: Implement this function")`; no position is set. -/
def placeholderBody : BlockStmt :=
  .mk NoPos
    [.ExprStmt (.CallExpr (.Ident { NamePos := NoPos, Name := "panic" }) NoPos
      [.BasicLit NoPos .STRING "\"TODO: Implement this function\""] NoPos NoPos)]
    NoPos

/-- One element of `candidates`, a map with these seven keys. -/
structure Candidate where
  file_path : String
  file_src_code : String
  func_name : String
  func_signature : String
  func_to_write : String
  line_start : Int
  line_end : Int
  deriving DecidableEq, Repr

/-- Go's `append` on a slice that may be nil (`none`): the result is never
nil. -/
def append {α : Type} (s : Option (List α)) (x : α) : Option (List α) :=
  some (s.getD [] ++ [x])

/-- What the callback of `ast.Inspect` reads and writes: the shared tree of the
file and the slice `candidates`. -/
structure InspectState where
  sourceFile : File
  candidates : Option (List Candidate)

/-- The callback given to `ast.Inspect` in `main`, for the file `path` with
line table `fs`. -/
def inspectFunc (env : Env) (fs : TokenFile) (path : String) (n : Node) (s : InspectState) :
    Bool × InspectState :=
  match n with
  | .FuncDecl candidateFunc =>
    let lineStart := PositionLine fs (funcAt s.sourceFile candidateFunc).Pos
    let lineEnd := PositionLine fs (funcAt s.sourceFile candidateFunc).End
    match formatCode env fs s.sourceFile (.FuncDecl candidateFunc) candidateFunc
        (fun funcToMod => { funcToMod with Body := none }) with
    | (.error _, t1) => (false, { s with sourceFile := t1 })
    | (.ok signatureOnly, t1) =>
      let placeholder := placeholderBody
      match formatCode env fs t1 (.FuncDecl candidateFunc) candidateFunc
          (fun funcToMod => { funcToMod with Body := some placeholder }) with
      | (.error _, t2) => (false, { s with sourceFile := t2 })
      | (.ok withPlaceholder, t2) =>
        match formatCode env fs t2 .File candidateFunc
            (fun funcToMod => { funcToMod with Body := some placeholder }) with
        | (.error _, t3) => (false, { s with sourceFile := t3 })
        | (.ok fullFile, t3) =>
          (true,
            { sourceFile := t3,
              candidates := append s.candidates
                { file_path := path,
                  file_src_code := fullFile,
                  func_name := (funcAt t3 candidateFunc).Name.Name,
                  func_signature := signatureOnly,
                  func_to_write := withPlaceholder,
                  line_start := lineStart,
                  line_end := lineEnd } })
  | _ => (true, s)

/-! ### The directory walk -/

/-- The directory tree under the scanned root, as `filepath.Walk` meets it.
`lstat` is the error `os.Lstat` returns for the entry, if any; `readdir` is
the error of reading the directory, if any; `entries` are the entries of the
directory in the order `readDirNames` returns them, sorted by name. -/
inductive FsNode where
  | file (name : String) (lstat : Option String)
  | dir (name : String) (lstat : Option String) (readdir : Option String)
      (entries : List FsNode)

/-- The name of an entry. -/
def FsNode.name : FsNode → String
  | .file n _ => n
  | .dir n _ _ _ => n

/-- The error of `os.Lstat` on an entry. -/
def FsNode.lstat : FsNode → Option String
  | .file _ e => e
  | .dir _ e _ _ => e

/-- Split at every slash. -/
def splitSlash : List Char → List (List Char)
  | [] => [[]]
  | c :: cs =>
    if c = '/' then [] :: splitSlash cs
    else
      match splitSlash cs with
      | [] => [[c]]
      | x :: xs => (c :: x) :: xs

/-- The elements of a cleaned path, `acc` holding those kept so far in reverse:
empty elements and `.` are dropped, `..` removes the element before it, or is
dropped at the root, or kept when nothing precedes it. -/
def cleanElems (rooted : Bool) : List String → List String → List String
  | [], acc => acc.reverse
  | e :: es, acc =>
    if e = "" ∨ e = "." then cleanElems rooted es acc
    else if e = ".." then
      match acc with
      | [] => if rooted then cleanElems rooted es [] else cleanElems rooted es [".."]
      | a :: rest =>
        if a = ".." then cleanElems rooted es (".." :: a :: rest) else cleanElems rooted es rest
    else cleanElems rooted es (e :: acc)

/-- Go: `filepath.Clean` for slash-separated paths. -/
def Clean (path : String) : String :=
  if path = "" then "."
  else
    let rooted := path.data.head? = some '/'
    let out := String.intercalate "/"
      (cleanElems rooted ((splitSlash path.data).map String.mk) [])
    if rooted then "/" ++ out else if out = "" then "." else out

/-- Go: `filepath.Join(dir, name)`. -/
def Join (dir name : String) : String :=
  if dir ≠ "" then Clean (dir ++ "/" ++ name)
  else if name ≠ "" then Clean name
  else ""

/-- The `fs.FileInfo` of an entry, as far as the program reads it. -/
structure FileInfo where
  IsDir : Bool
  deriving DecidableEq, Repr

/-- The arguments of one call of the walk function: `ok path info` is the call
`fn(path, info, nil)`, `failed path info err` the call `fn(path, info, err)`
with an error, where `info` is nil when `os.Lstat` failed. -/
inductive WalkArgs where
  | ok (path : String) (info : FileInfo)
  | failed (path : String) (info : Option FileInfo) (err : String)
  deriving DecidableEq, Repr

/-- The path argument of a call. -/
def WalkArgs.path : WalkArgs → String
  | .ok p _ => p
  | .failed p _ _ => p

mutual
/-- The calls that `walk(path, info, fn)` of path/filepath makes for an entry
whose `Lstat` succeeded, in order, given that `fn` always returns nil: a file
is reported; a directory is reported together with the error of reading it
and, when it could be read, each entry is visited in turn. -/
def walk (path : String) : FsNode → List WalkArgs
  | .file _ _ => [.ok path { IsDir := false }]
  | .dir _ _ none entries => .ok path { IsDir := true } :: walkEntries path entries
  | .dir _ _ (some err) _ => [.failed path (some { IsDir := true }) err]
/-- The calls for the entries of the directory `path`: an entry whose `Lstat`
fails is reported with that error and a nil `info`. -/
def walkEntries (path : String) : List FsNode → List WalkArgs
  | [] => []
  | .file name (some err) :: rest =>
    .failed (Join path name) none err :: walkEntries path rest
  | .dir name (some err) _ _ :: rest =>
    .failed (Join path name) none err :: walkEntries path rest
  | .file name none :: rest =>
    walk (Join path name) (.file name none) ++ walkEntries path rest
  | .dir name none rd es :: rest =>
    walk (Join path name) (.dir name none rd es) ++ walkEntries path rest
end

/-- The calls that `filepath.Walk(root, fn)` makes, in order. -/
def Walk (root : String) (node : FsNode) : List WalkArgs :=
  match node.lstat with
  | some err => [.failed root none err]
  | none => walk root node

/-- A line written to the standard error stream. -/
inductive LogEntry where
  | usage
  | repoDoesNotExist (repoDir : String)
  | problem (repoDir : String) (err : String)
  deriving DecidableEq, Repr

/-- What the walk function of `main` reads and writes: the slice `candidates`,
the lines logged, and the file names passed to `parser.ParseFile` so far. -/
structure WalkState where
  candidates : Option (List Candidate)
  log : List LogEntry
  parsed : List String

/-- The function given to `filepath.Walk` in `main`.  Every return path
returns nil, so the walk is never cut short. -/
def walkFunc (env : Env) (repoDir : String) (a : WalkArgs) (s : WalkState) : WalkState :=
  match a with
  | .failed _ _ err => { s with log := s.log ++ [.problem repoDir err] }
  | .ok path info =>
    if info.IsDir || !HasSuffix path ".go" || HasSuffix path "_test.go" then s
    else
      match ParseFile env path 0 with
      | .error _ err =>
        { s with log := s.log ++ [.problem repoDir err], parsed := s.parsed ++ [path] }
      | .ok sourceFile fs =>
        { s with
          candidates :=
            (Inspect InspectState.sourceFile (inspectFunc env fs path)
              { sourceFile := sourceFile, candidates := s.candidates }).candidates,
          parsed := s.parsed ++ [path] }

/-- The JSON object of one candidate; encoding/json writes the keys of a map
in sorted order. -/
def marshalCandidate (env : Env) (c : Candidate) : String :=
  "\x7b\"file_path\":" ++ env.jsonString c.file_path ++
  ",\"file_src_code\":" ++ env.jsonString c.file_src_code ++
  ",\"func_name\":" ++ env.jsonString c.func_name ++
  ",\"func_signature\":" ++ env.jsonString c.func_signature ++
  ",\"func_to_write\":" ++ env.jsonString c.func_to_write ++
  ",\"line_end\":" ++ toString c.line_end ++
  ",\"line_start\":" ++ toString c.line_start ++ "\x7d"

/-- Go: `json.Marshal(candidates)`: a nil slice is encoded as `null`, any other
slice as an array. -/
def Marshal (env : Env) : Option (List Candidate) → String
  | none => "null"
  | some cs => "[" ++ String.intercalate "," (cs.map (marshalCandidate env)) ++ "]"

/-- What a run leaves behind. -/
structure Output where
  stdout : String
  stderr : List LogEntry
  exitCode : Nat

/-- The state after the walk function has been called with each of `calls` in
turn, starting from `var candidates []map[string]any`, a nil slice. -/
def scanCalls (env : Env) (repoDir : String) (calls : List WalkArgs) : WalkState :=
  calls.foldl (fun s a => walkFunc env repoDir a s) { candidates := none, log := [], parsed := [] }

/-- The walk of `main` over the directory tree `root` found at `repoDir`. -/
def scan (env : Env) (repoDir : String) (root : FsNode) : WalkState :=
  scanCalls env repoDir (Walk repoDir root)

/-- The program.  `osArgs` is `os.Args`; `stat repoDir` is the directory tree at
`repoDir`, or `none` when `os.Stat` reports that it does not exist. -/
def main (env : Env) (stat : String → Option FsNode) (osArgs : List String) : Output :=
  match osArgs with
  | [_, strategy, repoDir] =>
    if strategy ≠ "rewrite-candidates" then { stdout := "", stderr := [.usage], exitCode := 1 }
    else
      match stat repoDir with
      | none => { stdout := "", stderr := [.repoDoesNotExist repoDir], exitCode := 1 }
      | some root =>
        { stdout := Marshal env (scan env repoDir root).candidates ++ "\n",
          stderr := (scan env repoDir root).log,
          exitCode := 0 }
  | _ => { stdout := "", stderr := [.usage], exitCode := 1 }

/-! ## The candidate list as the specification describes it -/

/-- The candidate of the function declaration `d`, the `i`-th declaration of
`file`: its three renders (the declaration without a body, the declaration
with the placeholder body, the file with the placeholder body in this one
declaration), its name and its lines; none when one of the renders fails. -/
def candidateOf (env : Env) (fs : TokenFile) (path : String) (file : File) (i : Nat)
    (d : FuncDecl) : Option Candidate :=
  match env.formatNode fs (.FuncDecl { d with Body := none }),
    env.formatNode fs (.FuncDecl { d with Body := some placeholderBody }),
    env.formatNode fs (.File (file.modify i (fun d => { d with Body := some placeholderBody }))) with
  | .ok signatureOnly, .ok withPlaceholder, .ok fullFile =>
    some
      { file_path := path,
        file_src_code := fullFile,
        func_name := d.Name.Name,
        func_signature := signatureOnly,
        func_to_write := withPlaceholder,
        line_start := PositionLine fs d.Pos,
        line_end := PositionLine fs d.End }
  | _, _, _ => none

/-- The candidate of an entry of the declaration list: function declarations
only. -/
def declCandidate (env : Env) (fs : TokenFile) (path : String) (file : File)
    (p : Nat × Decl) : Option Candidate :=
  match p.2 with
  | .funcDecl d => candidateOf env fs path file p.1 d
  | _ => none

/-- The candidates of a parsed file: one for each function declaration at file
scope, in declaration order, leaving out those with a failed render. -/
def fileCandidates (env : Env) (fs : TokenFile) (path : String) (file : File) :
    List Candidate :=
  file.Decls.enum.filterMap (declCandidate env fs path file)

/-- A call of the walk function is eligible when it reports no error and the
entry is not a directory, ends in `.go` and does not end in `_test.go`. -/
def eligible : WalkArgs → Bool
  | .ok path info => !info.IsDir && HasSuffix path ".go" && !HasSuffix path "_test.go"
  | .failed _ _ _ => false

/-- The candidates that one call of the walk function contributes. -/
def callCandidates (env : Env) (a : WalkArgs) : List Candidate :=
  if eligible a then
    match ParseFile env a.path 0 with
    | .ok file fs => fileCandidates env fs a.path file
    | .error _ _ => []
  else []

/-- Whether a declaration is a function declaration. -/
def Decl.isFunc : Decl → Bool
  | .funcDecl _ => true
  | _ => false

/-- The number of function declarations of the file of an eligible call that
parses; 0 for every other call. -/
def callFuncCount (env : Env) (a : WalkArgs) : Nat :=
  if eligible a then
    match ParseFile env a.path 0 with
    | .ok file _ => file.Decls.countP Decl.isFunc
    | .error _ _ => 0
  else 0

/-- Every render of every function declaration of the file succeeds. -/
def rendersSucceed (env : Env) (fs : TokenFile) (file : File) : Prop :=
  ∀ i d, file.Decls[i]? = some (.funcDecl d) →
    (env.formatNode fs (.FuncDecl { d with Body := none })).toBool = true ∧
    (env.formatNode fs (.FuncDecl { d with Body := some placeholderBody })).toBool = true ∧
    (env.formatNode fs
      (.File (file.modify i (fun d => { d with Body := some placeholderBody })))).toBool = true

/-- The doc comment of a declaration. -/
def Decl.Doc : Decl → Option CommentGroup
  | .funcDecl d => d.Doc
  | .genDecl d => d.Doc
  | .badDecl _ _ => none

/-- A callback that does nothing, and returns true, on every node other than a
function declaration. -/
def Inert {σ : Type} (f : Node → σ → Bool × σ) : Prop :=
  ∀ n s, (∀ i, n ≠ .FuncDecl i) → f n s = (true, s)

/-- Appending the elements of a list one by one with `append`. -/
def appendAll {α : Type} (s : Option (List α)) (l : List α) : Option (List α) :=
  l.foldl append s

/-- The candidate, if any, that the declaration at index `i` contributes. -/
def candidatesAt (env : Env) (fs : TokenFile) (path : String) (file : File) (i : Nat) :
    List Candidate :=
  (file.Decls[i]?.bind (fun decl => declCandidate env fs path file (i, decl))).toList

/-- The tree that is printed for `file_src_code` of the declaration at index
`i`: the file after the assignment of the placeholder body through the pointer
`i`. -/
def placeholderTree (file : File) (i : Nat) : File :=
  file.modify i (fun funcToMod => { funcToMod with Body := some placeholderBody })

/-- A function declaration `func name() ...` whose keyword is at `func_`, with
an empty body between the braces at `lbrace` and `rbrace`. -/
def exampleFunc (name : String) (func_ lbrace rbrace : Pos) : FuncDecl :=
  { Doc := none, Recv := none, Name := { NamePos := func_ + 5, Name := name },
    Type_ := .mk func_ none (.mk (func_ + 6) [] (func_ + 7)) none,
    Body := some (.mk lbrace [] rbrace) }

/-- A stand-in print of a function declaration: its name and a mark for the
shape of its body. -/
def examplePrintFunc (d : FuncDecl) : String :=
  "func " ++ d.Name.Name ++ "()" ++
    (match d.Body with
      | none => ""
      | some (.mk _ [] _) => " \x7b\x7d"
      | some (.mk _ (_ :: _) _) => " \x7b...\x7d")

/-- A stand-in printer that never fails: a file is printed as the texts of its
comments followed by its function declarations. -/
def examplePrint : Printable → String
  | .FuncDecl d => examplePrintFunc d
  | .File f =>
    String.join (f.Comments.flatten.map (fun c => c.Text ++ "\n")) ++
      String.join (f.Decls.map (fun decl =>
        match decl with
        | .funcDecl d => examplePrintFunc d ++ "\n"
        | _ => ""))

/-- The tree of `a.go`, the source
`package p`, `// note`, `func f() {`, `}`, `func g() {`, `}`,
`var v = func() {}` (one per line), with its comment, which is the doc comment
of `f`.  The last declaration holds a function literal. -/
def exampleFile : File :=
  { Doc := none, Package := 1, Name := { NamePos := 9, Name := "p" },
    Decls :=
      [.funcDecl { exampleFunc "f" 19 28 30 with Doc := some [{ Slash := 11, Text := "// note" }] },
        .funcDecl (exampleFunc "g" 32 41 43),
        .genDecl
          { Doc := none, TokPos := 45, Tok := "var",
            Specs :=
              [.Other "ValueSpec" 49 62
                [.Ident { NamePos := 49, Name := "v" },
                  .FuncLit (.mk 53 none (.mk 57 [] 58) none) (.mk 60 [] 61)] []] }],
    Comments := [[{ Slash := 11, Text := "// note" }]] }

/-- The line table of `a.go`. -/
def exampleLines : TokenFile :=
  { size := 62, lines := [0, 10, 18, 29, 31, 42, 44], infos := [] }

/-- The tree of `c.go`, the source
`package p`, `func h() {`, `//line x.go:1`, `}` (one per line): the closing
brace of `h` stands on a line that the directive renumbers to 1. -/
def directiveFile : File :=
  { Doc := none, Package := 1, Name := { NamePos := 9, Name := "p" },
    Decls := [.funcDecl (exampleFunc "h" 11 20 36)],
    Comments := [[{ Slash := 22, Text := "//line x.go:1" }]] }

/-- The line table of `c.go`: four lines, and the line directive, in force from
the start of the fourth line. -/
def directiveLines : TokenFile :=
  { size := 37, lines := [0, 10, 21, 35], infos := [{ Offset := 35, Line := 1 }] }

/-- The tree of `d.go`, the source `package p`, `func k()` (one per line): a
function declared without a body. -/
def bodylessFile : File :=
  { Doc := none, Package := 1, Name := { NamePos := 9, Name := "p" },
    Decls := [.funcDecl { exampleFunc "k" 11 0 0 with Body := none }],
    Comments := [] }

/-- The line table of `d.go`. -/
def bodylessLines : TokenFile := { size := 19, lines := [0, 10], infos := [] }

/-- The tree that the parser has built for `b.go` when it gives up: a function
that was read before the error and a bad declaration. -/
def brokenFile : File :=
  { Doc := none, Package := 1, Name := { NamePos := 9, Name := "p" },
    Decls := [.funcDecl (exampleFunc "SomeOtherFuncInTheSameFile" 11 44 46), .badDecl 48 60],
    Comments := [] }

/-- An environment in which `repo/a.go`, `repo/c.go` and `repo/d.go` parse to
the trees above, `repo/b.go` has an error after a part of it was parsed, every
other file cannot be read, and the printer is `examplePrint`. -/
def exampleEnv : Env :=
  { parse := fun filename =>
      if filename = "repo/a.go" then .ok exampleFile exampleLines
      else if filename = "repo/b.go" then
        .error (some brokenFile) "repo/b.go:5:1: expected declaration, found MalformedFunc"
      else if filename = "repo/c.go" then .ok directiveFile directiveLines
      else if filename = "repo/d.go" then .ok bodylessFile bodylessLines
      else .error none ("open " ++ filename ++ ": no such file or directory"),
    formatNode := fun _ node => .ok (examplePrint node),
    jsonString := fun v => "\"" ++ v ++ "\"" }

/-- The environment `exampleEnv` with a printer that fails on every function
declaration named `f` printed on its own, and succeeds elsewhere. -/
def failingEnv : Env :=
  { exampleEnv with
    formatNode := fun _ node =>
      match node with
      | .FuncDecl d =>
        if d.Name.Name = "f" then .error "format: cannot print f" else .ok (examplePrint node)
      | .File _ => .ok (examplePrint node) }

/-- A directory `repo` with the files `a.go`, `a_test.go`, `b.go` (which does
not parse) and `c.go` and the directory `sub.go`. -/
def exampleRoot : FsNode :=
  .dir "repo" none none
    [.file "a.go" none, .file "a_test.go" none, .file "b.go" none, .file "c.go" none,
      .dir "sub.go" none none []]

/-- A directory `repo` that can be listed but whose entries cannot be examined
(read permission without search permission): `os.Lstat` fails on its one
entry, the regular file `a.go`. -/
def lstatRoot : FsNode :=
  .dir "repo" none none [.file "a.go" (some "lstat repo/a.go: permission denied")]

/-- A directory `repo` with the one file `a.go`. -/
def commentRoot : FsNode :=
  .dir "repo" none none [.file "a.go" none]

/-- The candidate of the function `f` of `repo/a.go` in the example. -/
def exampleCandidate : Candidate :=
  { file_path := "repo/a.go",
    file_src_code := "func f() \x7b...\x7d\nfunc g() \x7b\x7d\n",
    func_name := "f",
    func_signature := "func f()",
    func_to_write := "func f() \x7b...\x7d",
    line_start := 3,
    line_end := 4 }

/-- Whether an entry of the directory tree is a directory. -/
def FsNode.isDir : FsNode → Bool
  | .file _ _ => false
  | .dir _ _ _ _ => true

mutual
/-- The paths, relative to a directory, of everything below it. -/
def FsNode.relPaths : FsNode → List String
  | .file _ _ => []
  | .dir _ _ _ entries => relPathsOf entries
/-- The paths, relative to the directory that lists them, of the entries and of
everything below them. -/
def relPathsOf : List FsNode → List String
  | [] => []
  | .file name _ :: rest => name :: relPathsOf rest
  | .dir name l r es :: rest =>
    (name :: (FsNode.relPaths (.dir name l r es)).map (fun p => name ++ "/" ++ p)) ++
      relPathsOf rest
end

/-! ## Assignments through a pointer -/

theorem setDecl_length (g : FuncDecl → FuncDecl) (i : Nat) (l : List Decl) :
    (setDecl g i l).length = l.length := by
  induction l generalizing i with
  | nil => cases i <;> rfl
  | cons x xs ih =>
    cases i with
    | zero => cases x <;> rfl
    | succ i => simp [setDecl, ih]

theorem setDecl_get_self (g : FuncDecl → FuncDecl) (i : Nat) (l : List Decl) (d : FuncDecl)
    (h : l[i]? = some (.funcDecl d)) : (setDecl g i l)[i]? = some (.funcDecl (g d)) := by
  induction l generalizing i with
  | nil => simp at h
  | cons x xs ih =>
    cases i with
    | zero =>
      simp only [List.getElem?_cons_zero, Option.some.injEq] at h
      subst h
      simp [setDecl]
    | succ i =>
      simp only [List.getElem?_cons_succ] at h
      simp [setDecl, ih i h]

theorem setDecl_get_other (g : FuncDecl → FuncDecl) (i j : Nat) (l : List Decl) (h : j ≠ i) :
    (setDecl g i l)[j]? = l[j]? := by
  induction l generalizing i j with
  | nil => cases i <;> rfl
  | cons x xs ih =>
    cases i with
    | zero =>
      cases j with
      | zero => exact absurd rfl h
      | succ j => cases x <;> simp [setDecl]
    | succ i =>
      cases j with
      | zero => simp [setDecl]
      | succ j => simp only [setDecl, List.getElem?_cons_succ]; exact ih i j (by omega)

theorem setDecl_not_func (g : FuncDecl → FuncDecl) (i : Nat) (l : List Decl)
    (h : ∀ d, l[i]? ≠ some (.funcDecl d)) : setDecl g i l = l := by
  induction l generalizing i with
  | nil => cases i <;> rfl
  | cons x xs ih =>
    cases i with
    | zero =>
      cases x with
      | funcDecl d => exact absurd (by simp) (h d)
      | genDecl d => rfl
      | badDecl a b => rfl
    | succ i =>
      simp only [setDecl]
      rw [ih i (fun d hd => h d (by simpa using hd))]

/-- Putting the saved body back undoes an assignment that only sets `Body`. -/
theorem setDecl_restore (g : FuncDecl → FuncDecl) (hg : ∀ d, g d = { d with Body := (g d).Body })
    (i : Nat) (l : List Decl) (d : FuncDecl) (h : l[i]? = some (.funcDecl d)) :
    setDecl (fun x => { x with Body := d.Body }) i (setDecl g i l) = l := by
  induction l generalizing i with
  | nil => simp at h
  | cons x xs ih =>
    cases i with
    | zero =>
      simp only [List.getElem?_cons_zero, Option.some.injEq] at h
      subst h
      simp only [setDecl]
      have h1 := hg d
      congr 2
      rw [h1]
    | succ i =>
      simp only [List.getElem?_cons_succ] at h
      simp only [setDecl]
      rw [ih i h]

theorem funcAt_of_get (file : File) (i : Nat) (d : FuncDecl)
    (h : file.Decls[i]? = some (.funcDecl d)) : funcAt file i = d := by
  simp [funcAt, h]

theorem modify_get_self (file : File) (g : FuncDecl → FuncDecl) (i : Nat) (d : FuncDecl)
    (h : file.Decls[i]? = some (.funcDecl d)) :
    (file.modify i g).Decls[i]? = some (.funcDecl (g d)) :=
  setDecl_get_self g i file.Decls d h

/-- The tree that `formatCode` leaves behind is the tree it was given, whenever
the modification only assigns `Body`. -/
theorem formatCode_tree (env : Env) (fs : TokenFile) (tree : File) (n : NodeRef) (i : Nat)
    (g : FuncDecl → FuncDecl) (hg : ∀ d, g d = { d with Body := (g d).Body }) :
    (formatCode env fs tree n i g).2 = tree := by
  have key : (tree.modify i g).modify i (fun d => { d with Body := (funcAt tree i).Body }) =
      tree := by
    by_cases h : ∃ d, tree.Decls[i]? = some (.funcDecl d)
    · obtain ⟨d, hd⟩ := h
      rw [funcAt_of_get tree i d hd]
      simp only [File.modify]
      rw [setDecl_restore g hg i tree.Decls d hd]
    · have h2 : ∀ d, tree.Decls[i]? ≠ some (.funcDecl d) := fun d hd => h ⟨d, hd⟩
      simp only [File.modify]
      rw [setDecl_not_func g i tree.Decls h2, setDecl_not_func _ i tree.Decls h2]
  unfold formatCode
  simp only
  split <;> exact key

/-- The result of `formatCode` is the printer's result for the node as it stands
after the modification. -/
theorem formatCode_result (env : Env) (fs : TokenFile) (tree : File) (n : NodeRef) (i : Nat)
    (g : FuncDecl → FuncDecl) :
    (formatCode env fs tree n i g).1 = env.formatNode fs (deref (tree.modify i g) n) := by
  unfold formatCode
  simp only
  split <;> simp_all

theorem formatCode_eq (env : Env) (fs : TokenFile) (tree : File) (n : NodeRef) (i : Nat)
    (g : FuncDecl → FuncDecl) (hg : ∀ d, g d = { d with Body := (g d).Body }) :
    formatCode env fs tree n i g = (env.formatNode fs (deref (tree.modify i g) n), tree) :=
  Prod.ext (formatCode_result env fs tree n i g) (formatCode_tree env fs tree n i g hg)

theorem deref_modify_func (file : File) (g : FuncDecl → FuncDecl) (i : Nat) (d : FuncDecl)
    (h : file.Decls[i]? = some (.funcDecl d)) :
    deref (file.modify i g) (.FuncDecl i) = .FuncDecl (g d) := by
  simp only [deref]
  rw [funcAt_of_get _ i (g d) (modify_get_self file g i d h)]

/-! ## The callback of the traversal -/

/-- At a function declaration the callback leaves the tree as it found it and
appends the candidate of the declaration, or appends nothing and returns false
when a render fails. -/
theorem inspectFunc_funcDecl (env : Env) (fs : TokenFile) (path : String) (i : Nat)
    (s : InspectState) (d : FuncDecl) (h : s.sourceFile.Decls[i]? = some (.funcDecl d)) :
    inspectFunc env fs path (.FuncDecl i) s =
      match candidateOf env fs path s.sourceFile i d with
      | some c => (true, { s with candidates := append s.candidates c })
      | none => (false, s) := by
  have e1 := formatCode_eq env fs s.sourceFile (.FuncDecl i) i
    (fun funcToMod => { funcToMod with Body := none }) (fun _ => rfl)
  have e2 := formatCode_eq env fs s.sourceFile (.FuncDecl i) i
    (fun funcToMod => { funcToMod with Body := some placeholderBody }) (fun _ => rfl)
  have e3 := formatCode_eq env fs s.sourceFile .File i
    (fun funcToMod => { funcToMod with Body := some placeholderBody }) (fun _ => rfl)
  rw [deref_modify_func s.sourceFile _ i d h] at e1 e2
  simp only [deref] at e3
  unfold inspectFunc candidateOf
  simp only [e1]
  cases h1 : env.formatNode fs (.FuncDecl { d with Body := none }) with
  | error err => simp
  | ok signatureOnly =>
    simp only [e2]
    cases h2 : env.formatNode fs (.FuncDecl { d with Body := some placeholderBody }) with
    | error err => simp
    | ok withPlaceholder =>
      simp only [e3]
      cases h3 : env.formatNode fs
          (.File (s.sourceFile.modify i (fun d => { d with Body := some placeholderBody }))) with
      | error err => simp
      | ok fullFile => simp [funcAt_of_get s.sourceFile i d h]

theorem inspectFunc_inert (env : Env) (fs : TokenFile) (path : String) :
    Inert (inspectFunc env fs path) := by
  intro n s hn
  cases n with
  | FuncDecl i => exact absurd rfl (hn i)
  | _ => rfl

theorem visit_inert {σ : Type} (f : Node → σ → Bool × σ) (hf : Inert f) (n : Node)
    (hn : ∀ i, n ≠ .FuncDecl i) (c : σ → σ) (hc : ∀ s, c s = s) (s : σ) :
    visit f n c s = s := by
  unfold visit
  rw [hf n s hn]
  simp only [hc]
  rw [hf .nil s (by intro i h; cases h)]

theorem walkIdent_inert {σ : Type} (f : Node → σ → Bool × σ) (hf : Inert f) (id : Ident)
    (s : σ) : walkIdent f id s = s :=
  visit_inert f hf _ (by intro i h; cases h) _ (fun _ => rfl) s

theorem walkIdents_inert {σ : Type} (f : Node → σ → Bool × σ) (hf : Inert f) :
    ∀ (ids : List Ident) (s : σ), walkIdents f ids s = s
  | [], s => rfl
  | x :: xs, s => by rw [walkIdents, walkIdent_inert f hf x s, walkIdents_inert f hf xs s]

theorem walkComments_inert {σ : Type} (f : Node → σ → Bool × σ) (hf : Inert f) :
    ∀ (cs : List Comment) (s : σ), walkComments f cs s = s
  | [], s => rfl
  | c :: cs, s => by
    rw [walkComments, visit_inert f hf _ (by intro i h; cases h) _ (fun _ => rfl) s,
      walkComments_inert f hf cs s]

theorem walkDoc_inert {σ : Type} (f : Node → σ → Bool × σ) (hf : Inert f) :
    ∀ (g : Option CommentGroup) (s : σ), walkDoc f g s = s
  | none, s => rfl
  | some g, s => by
    rw [walkDoc]
    exact visit_inert f hf _ (by intro i h; cases h) _ (walkComments_inert f hf g) s

mutual
theorem walkExpr_inert {σ : Type} (f : Node → σ → Bool × σ) (hf : Inert f) :
    ∀ (e : Expr) (s : σ), walkExpr f e s = s
  | .Ident id, s => by
    rw [walkExpr]; exact visit_inert f hf _ (by intro i h; cases h) _ (fun _ => rfl) s
  | .BasicLit p k v, s => by
    rw [walkExpr]; exact visit_inert f hf _ (by intro i h; cases h) _ (fun _ => rfl) s
  | .CallExpr fn l args e r, s => by
    rw [walkExpr]
    exact visit_inert f hf _ (by intro i h; cases h) _
      (fun s => by rw [walkExpr_inert f hf fn s, walkExprs_inert f hf args s]) s
  | .FuncLit t b, s => by
    rw [walkExpr]
    exact visit_inert f hf _ (by intro i h; cases h) _
      (fun s => by rw [walkFuncType_inert f hf t s, walkBlock_inert f hf b s]) s
  | .Other k p e es ss, s => by
    rw [walkExpr]
    exact visit_inert f hf _ (by intro i h; cases h) _
      (fun s => by rw [walkExprs_inert f hf es s, walkStmts_inert f hf ss s]) s
theorem walkExprs_inert {σ : Type} (f : Node → σ → Bool × σ) (hf : Inert f) :
    ∀ (es : List Expr) (s : σ), walkExprs f es s = s
  | [], s => by rw [walkExprs]
  | e :: es, s => by rw [walkExprs, walkExpr_inert f hf e s, walkExprs_inert f hf es s]
theorem walkStmt_inert {σ : Type} (f : Node → σ → Bool × σ) (hf : Inert f) :
    ∀ (st : Stmt) (s : σ), walkStmt f st s = s
  | .ExprStmt x, s => by
    rw [walkStmt]
    exact visit_inert f hf _ (by intro i h; cases h) _ (fun s => walkExpr_inert f hf x s) s
  | .Block b, s => by
    rw [walkStmt]
    exact walkBlock_inert f hf b s
  | .Other k p e es ss, s => by
    rw [walkStmt]
    exact visit_inert f hf _ (by intro i h; cases h) _
      (fun s => by rw [walkExprs_inert f hf es s, walkStmts_inert f hf ss s]) s
theorem walkStmts_inert {σ : Type} (f : Node → σ → Bool × σ) (hf : Inert f) :
    ∀ (ss : List Stmt) (s : σ), walkStmts f ss s = s
  | [], s => by rw [walkStmts]
  | x :: xs, s => by rw [walkStmts, walkStmt_inert f hf x s, walkStmts_inert f hf xs s]
theorem walkBlock_inert {σ : Type} (f : Node → σ → Bool × σ) (hf : Inert f) :
    ∀ (b : BlockStmt) (s : σ), walkBlock f b s = s
  | .mk lb l rb, s => by
    rw [walkBlock]
    exact visit_inert f hf _ (by intro i h; cases h) _ (fun s => walkStmts_inert f hf l s) s
theorem walkField_inert {σ : Type} (f : Node → σ → Bool × σ) (hf : Inert f) :
    ∀ (fd : Field) (s : σ), walkField f fd s = s
  | .mk names none, s => by
    rw [walkField]
    exact visit_inert f hf _ (by intro i h; cases h) _ (fun s => walkIdents_inert f hf names s) s
  | .mk names (some t), s => by
    rw [walkField]
    exact visit_inert f hf _ (by intro i h; cases h) _
      (fun s => by rw [walkIdents_inert f hf names s, walkExpr_inert f hf t s]) s
theorem walkFields_inert {σ : Type} (f : Node → σ → Bool × σ) (hf : Inert f) :
    ∀ (l : List Field) (s : σ), walkFields f l s = s
  | [], s => by rw [walkFields]
  | x :: xs, s => by rw [walkFields, walkField_inert f hf x s, walkFields_inert f hf xs s]
theorem walkFieldList_inert {σ : Type} (f : Node → σ → Bool × σ) (hf : Inert f) :
    ∀ (fl : FieldList) (s : σ), walkFieldList f fl s = s
  | .mk o l c, s => by
    rw [walkFieldList]
    exact visit_inert f hf _ (by intro i h; cases h) _ (fun s => walkFields_inert f hf l s) s
theorem walkFieldListOpt_inert {σ : Type} (f : Node → σ → Bool × σ) (hf : Inert f) :
    ∀ (fl : Option FieldList) (s : σ), walkFieldListOpt f fl s = s
  | none, s => by rw [walkFieldListOpt]
  | some fl, s => by rw [walkFieldListOpt, walkFieldList_inert f hf fl s]
theorem walkFuncType_inert {σ : Type} (f : Node → σ → Bool × σ) (hf : Inert f) :
    ∀ (ft : FuncType) (s : σ), walkFuncType f ft s = s
  | .mk fn tp p r, s => by
    rw [walkFuncType]
    exact visit_inert f hf _ (by intro i h; cases h) _
      (fun s => by
        rw [walkFieldListOpt_inert f hf tp s, walkFieldList_inert f hf p s,
          walkFieldListOpt_inert f hf r s]) s
end

/-- The walk below a function declaration, closures in its body included,
leaves the state as it is. -/
theorem walkFuncDeclChildren_inert {σ : Type} (f : Node → σ → Bool × σ) (hf : Inert f)
    (d : FuncDecl) (s : σ) : walkFuncDeclChildren f d s = s := by
  unfold walkFuncDeclChildren
  rw [walkDoc_inert f hf, walkFieldListOpt_inert f hf, walkIdent_inert f hf,
    walkFuncType_inert f hf]
  cases d.Body with
  | none => rfl
  | some b => exact walkBlock_inert f hf b s

/-! ## The traversal of a file -/

theorem appendAll_append {α : Type} (s : Option (List α)) (l₁ l₂ : List α) :
    appendAll s (l₁ ++ l₂) = appendAll (appendAll s l₁) l₂ := by
  simp [appendAll]

theorem appendAll_getD {α : Type} (s : Option (List α)) (l : List α) :
    (appendAll s l).getD [] = s.getD [] ++ l := by
  induction l generalizing s with
  | nil => simp [appendAll]
  | cons x xs ih =>
    have h := ih (append s x)
    simp only [appendAll, List.foldl_cons] at h ⊢
    rw [h]
    simp [append]

theorem appendAll_eq_none {α : Type} (s : Option (List α)) (l : List α) :
    appendAll s l = none ↔ s = none ∧ l = [] := by
  cases l with
  | nil => simp [appendAll]
  | cons x xs =>
    have h : appendAll s (x :: xs) = appendAll (some (s.getD [] ++ [x])) xs := rfl
    rw [h]
    constructor
    · intro hn
      exfalso
      have := appendAll_getD (some (s.getD [] ++ [x])) xs
      rw [hn] at this
      simp at this
    · intro hn
      exact absurd hn.2 (by simp)

/-- The candidate that the declaration at index `i` of the file contributes. -/
theorem walkDecl_inspectFunc (env : Env) (fs : TokenFile) (path : String) (i : Nat)
    (s : InspectState) :
    walkDecl InspectState.sourceFile (inspectFunc env fs path) i s =
      { s with candidates :=
          appendAll s.candidates (candidatesAt env fs path s.sourceFile i) } := by
  have hf := inspectFunc_inert env fs path
  unfold walkDecl candidatesAt
  cases h : s.sourceFile.Decls[i]? with
  | none => simp [appendAll]
  | some decl =>
    cases decl with
    | funcDecl d =>
      simp only [Option.some_bind, declCandidate]
      unfold visit
      rw [inspectFunc_funcDecl env fs path i s d h]
      cases hc : candidateOf env fs path s.sourceFile i d with
      | none => simp [appendAll]
      | some c =>
        simp only [h]
        rw [walkFuncDeclChildren_inert _ hf, hf .nil _ (by intro i h; cases h)]
        simp [appendAll]
    | genDecl d =>
      simp only [Option.some_bind, declCandidate]
      rw [visit_inert _ hf _ (by intro i h; cases h) _
        (fun s1 => by rw [walkDoc_inert _ hf, walkExprs_inert _ hf])]
      simp [appendAll]
    | badDecl a b =>
      simp only [Option.some_bind, declCandidate]
      rw [visit_inert _ hf _ (by intro i h; cases h) _ (fun _ => rfl)]
      simp [appendAll]

theorem foldl_walkDecl (env : Env) (fs : TokenFile) (path : String) (s : InspectState)
    (n : Nat) :
    (List.range n).foldl (fun s i => walkDecl InspectState.sourceFile (inspectFunc env fs path) i s)
        s =
      { s with
        candidates :=
          appendAll s.candidates ((List.range n).flatMap (candidatesAt env fs path s.sourceFile)) } := by
  induction n with
  | zero => simp [appendAll]
  | succ n ih =>
    rw [List.range_succ, List.foldl_append, ih]
    simp only [List.foldl_cons, List.foldl_nil]
    rw [walkDecl_inspectFunc]
    simp only [List.flatMap_append, List.flatMap_cons, List.flatMap_nil, List.append_nil,
      appendAll_append]

theorem range_flatMap_get {α β : Type} (h : Nat × α → Option β) (l : List α) :
    (List.range l.length).flatMap (fun i => (l[i]?.bind (fun a => h (i, a))).toList) =
      l.enum.filterMap h := by
  induction l using List.reverseRecOn with
  | nil => rfl
  | append_singleton xs x ih =>
    rw [List.length_append, List.length_singleton, List.range_succ, List.flatMap_append,
      List.enum_append, List.filterMap_append, ← ih]
    congr 1
    · apply List.flatMap_congr
      intro i hi
      rw [List.mem_range] at hi
      rw [List.getElem?_append_left hi]
    · cases hh : h (xs.length, x) <;> simp [List.enumFrom, hh]

/-- The traversal of a parsed file leaves the tree as it is and appends the
candidates of its function declarations, in declaration order. -/
theorem Inspect_inspectFunc (env : Env) (fs : TokenFile) (path : String) (s : InspectState) :
    Inspect InspectState.sourceFile (inspectFunc env fs path) s =
      { s with candidates :=
          appendAll s.candidates (fileCandidates env fs path s.sourceFile) } := by
  have hf := inspectFunc_inert env fs path
  unfold Inspect visit
  rw [hf .File s (by intro i h; cases h)]
  simp only
  rw [walkDoc_inert _ hf, walkIdent_inert _ hf, foldl_walkDecl, hf .nil _ (by intro i h; cases h)]
  simp only [fileCandidates]
  rw [← range_flatMap_get (declCandidate env fs path s.sourceFile) s.sourceFile.Decls]
  rfl

/-! ## The walk -/

theorem eligible_ok (path : String) (info : FileInfo) :
    eligible (.ok path info) =
      !(info.IsDir || !HasSuffix path ".go" || HasSuffix path "_test.go") := by
  simp only [eligible]
  cases info.IsDir <;> cases HasSuffix path ".go" <;> cases HasSuffix path "_test.go" <;> rfl

/-- One call of the walk function appends the candidates of the call. -/
theorem walkFunc_candidates (env : Env) (repoDir : String) (a : WalkArgs) (s : WalkState) :
    (walkFunc env repoDir a s).candidates = appendAll s.candidates (callCandidates env a) := by
  cases a with
  | failed p info err => simp [walkFunc, callCandidates, eligible, appendAll]
  | ok path info =>
    have he := eligible_ok path info
    unfold walkFunc callCandidates
    simp only [WalkArgs.path]
    cases hg : (info.IsDir || !HasSuffix path ".go" || HasSuffix path "_test.go") with
    | true =>
      rw [hg] at he
      simp [he, appendAll]
    | false =>
      rw [hg] at he
      simp only [he, Bool.false_eq_true, if_false, Bool.not_false, if_true]
      cases ParseFile env path 0 with
      | error fragment err => simp [appendAll]
      | ok sourceFile fs => simp only [Inspect_inspectFunc]

/-- One call of the walk function hands the path to the parser exactly when the
call is eligible. -/
theorem walkFunc_parsed (env : Env) (repoDir : String) (a : WalkArgs) (s : WalkState) :
    (walkFunc env repoDir a s).parsed = s.parsed ++ (if eligible a then [a.path] else []) := by
  cases a with
  | failed p info err => simp [walkFunc, eligible]
  | ok path info =>
    have he := eligible_ok path info
    unfold walkFunc
    simp only [WalkArgs.path]
    cases hg : (info.IsDir || !HasSuffix path ".go" || HasSuffix path "_test.go") with
    | true =>
      rw [hg] at he
      simp [he]
    | false =>
      rw [hg] at he
      simp only [he, Bool.false_eq_true, if_false, Bool.not_false, if_true]
      cases ParseFile env path 0 <;> rfl

theorem foldl_walkFunc_candidates (env : Env) (repoDir : String) (calls : List WalkArgs)
    (s : WalkState) :
    (calls.foldl (fun s a => walkFunc env repoDir a s) s).candidates =
      appendAll s.candidates (calls.flatMap (callCandidates env)) := by
  induction calls generalizing s with
  | nil => simp [appendAll]
  | cons a rest ih =>
    rw [List.foldl_cons, ih, walkFunc_candidates, List.flatMap_cons, appendAll_append]

theorem foldl_walkFunc_parsed (env : Env) (repoDir : String) (calls : List WalkArgs)
    (s : WalkState) :
    (calls.foldl (fun s a => walkFunc env repoDir a s) s).parsed =
      s.parsed ++ (calls.filter eligible).map WalkArgs.path := by
  induction calls generalizing s with
  | nil => simp
  | cons a rest ih =>
    rw [List.foldl_cons, ih, walkFunc_parsed]
    cases h : eligible a <;> simp [List.filter_cons, h]

/-- The slice after the calls holds the candidates of the calls, in order. -/
theorem scanCalls_candidates (env : Env) (repoDir : String) (calls : List WalkArgs) :
    (scanCalls env repoDir calls).candidates.getD [] = calls.flatMap (callCandidates env) := by
  unfold scanCalls
  rw [foldl_walkFunc_candidates, appendAll_getD]
  simp

/-- The slice is still nil after the calls exactly when no call contributed a
candidate. -/
theorem scanCalls_candidates_none (env : Env) (repoDir : String) (calls : List WalkArgs) :
    (scanCalls env repoDir calls).candidates = none ↔
      calls.flatMap (callCandidates env) = [] := by
  unfold scanCalls
  rw [foldl_walkFunc_candidates, appendAll_eq_none]
  simp

theorem scanCalls_parsed (env : Env) (repoDir : String) (calls : List WalkArgs) :
    (scanCalls env repoDir calls).parsed = (calls.filter eligible).map WalkArgs.path := by
  unfold scanCalls
  rw [foldl_walkFunc_parsed]
  simp

/-- Where a candidate of the output comes from: an eligible call of the walk
function whose file parsed, and a function declaration of that file. -/
theorem candidate_origin (env : Env) (repoDir : String) (calls : List WalkArgs) (c : Candidate)
    (hc : c ∈ (scanCalls env repoDir calls).candidates.getD []) :
    ∃ a file fs i d, a ∈ calls ∧ eligible a = true ∧ ParseFile env a.path 0 = .ok file fs ∧
      file.Decls[i]? = some (.funcDecl d) ∧ candidateOf env fs a.path file i d = some c := by
  rw [scanCalls_candidates, List.mem_flatMap] at hc
  obtain ⟨a, ha, hca⟩ := hc
  unfold callCandidates at hca
  cases he : eligible a with
  | false => simp [he] at hca
  | true =>
    simp only [he, if_true] at hca
    cases hp : ParseFile env a.path 0 with
    | error fragment err => simp [hp] at hca
    | ok file fs =>
      simp only [hp, fileCandidates, List.mem_filterMap] at hca
      obtain ⟨⟨i, decl⟩, hmem, hdc⟩ := hca
      cases decl with
      | funcDecl d =>
        exact ⟨a, file, fs, i, d, ha, he, hp, List.mk_mem_enum_iff_getElem?.mp hmem, hdc⟩
      | genDecl d => simp [declCandidate] at hdc
      | badDecl x y => simp [declCandidate] at hdc

theorem candidateOf_some (env : Env) (fs : TokenFile) (path : String) (file : File) (i : Nat)
    (d : FuncDecl) (c : Candidate) (h : candidateOf env fs path file i d = some c) :
    env.formatNode fs (.FuncDecl { d with Body := none }) = .ok c.func_signature ∧
    env.formatNode fs (.FuncDecl { d with Body := some placeholderBody }) = .ok c.func_to_write ∧
    env.formatNode fs (.File (placeholderTree file i)) = .ok c.file_src_code ∧
    c.file_path = path ∧ c.func_name = d.Name.Name ∧
    c.line_start = PositionLine fs d.Pos ∧ c.line_end = PositionLine fs d.End := by
  unfold candidateOf at h
  unfold placeholderTree
  cases h1 : env.formatNode fs (.FuncDecl { d with Body := none }) with
  | error e => simp [h1] at h
  | ok t1 =>
    cases h2 : env.formatNode fs (.FuncDecl { d with Body := some placeholderBody }) with
    | error e => simp [h1, h2] at h
    | ok t2 =>
      cases h3 : env.formatNode fs
          (.File (file.modify i (fun d => { d with Body := some placeholderBody }))) with
      | error e => simp [h1, h2, h3] at h
      | ok t3 =>
        simp only [h1, h2, h3, Option.some.injEq] at h
        subst h
        simp

/-! ## The claims -/

/-- C7: for every function declaration (pointer `funcToModify` into the tree),
every node to output and every modification that only assigns `Body`, the tree
that `formatCode` leaves behind, whether the printer returned text or an error,
is the tree it was given: the body is the one from before the call and nothing
else has changed. -/
theorem C7_formatCode_restores_tree (env : Env) (fs : TokenFile) (tree : File)
    (nodeToOutput : NodeRef) (funcToModify : Nat) (modFunc : FuncDecl → FuncDecl)
    (hmod : ∀ d, modFunc d = { d with Body := (modFunc d).Body }) :
    (formatCode env fs tree nodeToOutput funcToModify modFunc).2 = tree ∧
    (funcAt (formatCode env fs tree nodeToOutput funcToModify modFunc).2 funcToModify).Body =
      (funcAt tree funcToModify).Body ∧
    ((∃ text, (formatCode env fs tree nodeToOutput funcToModify modFunc).1 = .ok text) ∨
      (∃ err, (formatCode env fs tree nodeToOutput funcToModify modFunc).1 = .error err)) := by
  have h := formatCode_tree env fs tree nodeToOutput funcToModify modFunc hmod
  refine ⟨h, by rw [h], ?_⟩
  cases (formatCode env fs tree nodeToOutput funcToModify modFunc).1 with
  | error err => exact Or.inr ⟨err, rfl⟩
  | ok text => exact Or.inl ⟨text, rfl⟩

/-- Witness of C7: a body assignment on the first declaration of the example
file, with a printer that returns an error for it. -/
theorem C7_witness :
    (∀ d : FuncDecl, (fun x : FuncDecl => { x with Body := none }) d =
      { d with Body := ((fun x : FuncDecl => { x with Body := none }) d).Body }) ∧
    ((formatCode failingEnv exampleLines exampleFile (.FuncDecl 0) 0
        (fun x => { x with Body := none })).2 = exampleFile ∧
      (funcAt (formatCode failingEnv exampleLines exampleFile (.FuncDecl 0) 0
        (fun x => { x with Body := none })).2 0).Body = (funcAt exampleFile 0).Body ∧
      ((∃ text, (formatCode failingEnv exampleLines exampleFile (.FuncDecl 0) 0
          (fun x => { x with Body := none })).1 = .ok text) ∨
        (∃ err, (formatCode failingEnv exampleLines exampleFile (.FuncDecl 0) 0
          (fun x => { x with Body := none })).1 = .error err))) ∧
    (formatCode failingEnv exampleLines exampleFile (.FuncDecl 0) 0
      (fun x => { x with Body := none })).1 = .error "format: cannot print f" ∧
    (formatCode exampleEnv exampleLines exampleFile .File 0
      (fun x => { x with Body := none })).1 = .ok "// note\nfunc f()\nfunc g() \x7b\x7d\n" :=
  ⟨fun _ => rfl,
    C7_formatCode_restores_tree failingEnv exampleLines exampleFile (.FuncDecl 0) 0
      (fun x => { x with Body := none }) (fun _ => rfl),
    rfl, rfl⟩

/-- C1: every candidate of the output comes from a parsed file and a function
declaration `d` at some index `i` of it such that `file_src_code` is the print
of the tree that has the placeholder body in declaration `i` and is the parsed
tree everywhere else: every other declaration, at whatever index, is the
original one.  The callback finds the parsed tree unchanged whatever was
appended before (`prev`), and the traversal leaves it unchanged. -/
theorem C1_placeholder_only_in_own_declaration (env : Env) (repoDir : String) (root : FsNode)
    (c : Candidate) (hc : c ∈ (scan env repoDir root).candidates.getD []) :
    ∃ (file : File) (fs : TokenFile) (i : Nat) (d : FuncDecl),
      ParseFile env c.file_path 0 = .ok file fs ∧
      file.Decls[i]? = some (.funcDecl d) ∧
      c.func_name = d.Name.Name ∧
      env.formatNode fs (.File (placeholderTree file i)) = .ok c.file_src_code ∧
      (placeholderTree file i).Decls[i]? =
        some (.funcDecl { d with Body := some placeholderBody }) ∧
      (∀ j, j ≠ i → (placeholderTree file i).Decls[j]? = file.Decls[j]?) ∧
      (placeholderTree file i).Decls.length = file.Decls.length ∧
      (∀ prev, inspectFunc env fs c.file_path (.FuncDecl i)
          { sourceFile := file, candidates := prev } =
        (true, { sourceFile := file, candidates := append prev c })) ∧
      (∀ prev, (Inspect InspectState.sourceFile (inspectFunc env fs c.file_path)
          { sourceFile := file, candidates := prev }).sourceFile = file) := by
  obtain ⟨a, file, fs, i, d, _, _, hp, hd, hcand⟩ := candidate_origin env repoDir _ c hc
  obtain ⟨_, _, h3, h4, h5, _, _⟩ := candidateOf_some env fs a.path file i d c hcand
  rw [← h4] at hp hcand
  refine ⟨file, fs, i, d, hp, hd, h5, h3, ?_, ?_, ?_, ?_, ?_⟩
  · exact modify_get_self file _ i d hd
  · intro j hj
    exact setDecl_get_other _ i j file.Decls hj
  · exact setDecl_length _ i file.Decls
  · intro prev
    rw [inspectFunc_funcDecl env fs c.file_path i _ d hd]
    simp only [hcand]
  · intro prev
    rw [Inspect_inspectFunc]

/-- Witness of C1: the candidate of `f` in the example repository. -/
theorem C1_witness :
    exampleCandidate ∈ (scan exampleEnv "repo" exampleRoot).candidates.getD [] ∧
    ∃ (file : File) (fs : TokenFile) (i : Nat) (d : FuncDecl),
      ParseFile exampleEnv exampleCandidate.file_path 0 = .ok file fs ∧
      file.Decls[i]? = some (.funcDecl d) ∧
      exampleCandidate.func_name = d.Name.Name ∧
      exampleEnv.formatNode fs (.File (placeholderTree file i)) =
        .ok exampleCandidate.file_src_code ∧
      (placeholderTree file i).Decls[i]? =
        some (.funcDecl { d with Body := some placeholderBody }) ∧
      (∀ j, j ≠ i → (placeholderTree file i).Decls[j]? = file.Decls[j]?) ∧
      (placeholderTree file i).Decls.length = file.Decls.length ∧
      (∀ prev, inspectFunc exampleEnv fs exampleCandidate.file_path (.FuncDecl i)
          { sourceFile := file, candidates := prev } =
        (true, { sourceFile := file, candidates := append prev exampleCandidate })) ∧
      (∀ prev, (Inspect InspectState.sourceFile
          (inspectFunc exampleEnv fs exampleCandidate.file_path)
          { sourceFile := file, candidates := prev }).sourceFile = file) :=
  ⟨by decide,
    C1_placeholder_only_in_own_declaration exampleEnv "repo" exampleRoot exampleCandidate
      (by decide)⟩

/-- C3: every candidate of the output comes from a function declaration `d` of
a parsed file such that `func_signature` is the print of `d` with no body and
`func_to_write` is the print of `d` with the placeholder body, a block whose
one statement is the call `panic("TODO: Implement this function")`; both are
obtained by `formatCode` on the parsed tree, and in both printed declarations
the doc comment, receiver, name and type (type parameters, parameters and
results) are those of `d`. -/
theorem C3_signature_and_placeholder_renders (env : Env) (repoDir : String) (root : FsNode)
    (c : Candidate) (hc : c ∈ (scan env repoDir root).candidates.getD []) :
    ∃ (file : File) (fs : TokenFile) (i : Nat) (d : FuncDecl),
      ParseFile env c.file_path 0 = .ok file fs ∧
      file.Decls[i]? = some (.funcDecl d) ∧
      c.func_name = d.Name.Name ∧
      env.formatNode fs (.FuncDecl { d with Body := none }) = .ok c.func_signature ∧
      env.formatNode fs (.FuncDecl { d with Body := some placeholderBody }) =
        .ok c.func_to_write ∧
      formatCode env fs file (.FuncDecl i) i (fun funcToMod => { funcToMod with Body := none }) =
        (.ok c.func_signature, file) ∧
      formatCode env fs file (.FuncDecl i) i
          (fun funcToMod => { funcToMod with Body := some placeholderBody }) =
        (.ok c.func_to_write, file) ∧
      placeholderBody =
        .mk NoPos
          [.ExprStmt (.CallExpr (.Ident { NamePos := NoPos, Name := "panic" }) NoPos
            [.BasicLit NoPos .STRING "\"TODO: Implement this function\""] NoPos NoPos)]
          NoPos ∧
      (∀ b : Option BlockStmt,
        ({ d with Body := b } : FuncDecl).Doc = d.Doc ∧
        ({ d with Body := b } : FuncDecl).Recv = d.Recv ∧
        ({ d with Body := b } : FuncDecl).Name = d.Name ∧
        ({ d with Body := b } : FuncDecl).Type_ = d.Type_ ∧
        ({ d with Body := b } : FuncDecl).Body = b) := by
  obtain ⟨a, file, fs, i, d, _, _, hp, hd, hcand⟩ := candidate_origin env repoDir _ c hc
  obtain ⟨h1, h2, _, h4, h5, _, _⟩ := candidateOf_some env fs a.path file i d c hcand
  rw [← h4] at hp
  refine ⟨file, fs, i, d, hp, hd, h5, h1, h2, ?_, ?_, rfl, fun b => ⟨rfl, rfl, rfl, rfl, rfl⟩⟩
  · rw [formatCode_eq env fs file (.FuncDecl i) i _ (fun _ => rfl),
      deref_modify_func file _ i d hd, h1]
  · rw [formatCode_eq env fs file (.FuncDecl i) i _ (fun _ => rfl),
      deref_modify_func file _ i d hd, h2]

/-- Witness of C3: the candidate of `f` in the example repository. -/
theorem C3_witness :
    exampleCandidate ∈ (scan exampleEnv "repo" exampleRoot).candidates.getD [] ∧
    ∃ (file : File) (fs : TokenFile) (i : Nat) (d : FuncDecl),
      ParseFile exampleEnv exampleCandidate.file_path 0 = .ok file fs ∧
      file.Decls[i]? = some (.funcDecl d) ∧
      exampleCandidate.func_name = d.Name.Name ∧
      exampleEnv.formatNode fs (.FuncDecl { d with Body := none }) =
        .ok exampleCandidate.func_signature ∧
      exampleEnv.formatNode fs (.FuncDecl { d with Body := some placeholderBody }) =
        .ok exampleCandidate.func_to_write ∧
      formatCode exampleEnv fs file (.FuncDecl i) i
          (fun funcToMod => { funcToMod with Body := none }) =
        (.ok exampleCandidate.func_signature, file) ∧
      formatCode exampleEnv fs file (.FuncDecl i) i
          (fun funcToMod => { funcToMod with Body := some placeholderBody }) =
        (.ok exampleCandidate.func_to_write, file) ∧
      placeholderBody =
        .mk NoPos
          [.ExprStmt (.CallExpr (.Ident { NamePos := NoPos, Name := "panic" }) NoPos
            [.BasicLit NoPos .STRING "\"TODO: Implement this function\""] NoPos NoPos)]
          NoPos ∧
      (∀ b : Option BlockStmt,
        ({ d with Body := b } : FuncDecl).Doc = d.Doc ∧
        ({ d with Body := b } : FuncDecl).Recv = d.Recv ∧
        ({ d with Body := b } : FuncDecl).Name = d.Name ∧
        ({ d with Body := b } : FuncDecl).Type_ = d.Type_ ∧
        ({ d with Body := b } : FuncDecl).Body = b) :=
  ⟨by decide,
    C3_signature_and_placeholder_renders exampleEnv "repo" exampleRoot exampleCandidate
      (by decide)⟩

theorem length_filterMap_eq_countP {α β : Type} (h : α → Option β) (l : List α) :
    (l.filterMap h).length = l.countP (fun a => (h a).isSome) := by
  induction l with
  | nil => rfl
  | cons x xs ih =>
    cases hx : h x <;> simp [List.filterMap_cons, List.countP_cons, hx, ih]

theorem countP_isFunc_enum (l : List Decl) :
    l.enum.countP (fun p => Decl.isFunc p.2) = l.countP Decl.isFunc := by
  conv_rhs => rw [← List.enum_map_snd l]
  rw [List.countP_map]
  rfl

theorem length_fileCandidates_le (env : Env) (fs : TokenFile) (path : String) (file : File) :
    (fileCandidates env fs path file).length ≤ file.Decls.countP Decl.isFunc := by
  unfold fileCandidates
  rw [length_filterMap_eq_countP, ← countP_isFunc_enum]
  apply List.countP_mono_left
  intro p _ hp
  obtain ⟨i, decl⟩ := p
  cases decl with
  | funcDecl d => rfl
  | genDecl d => simp [declCandidate] at hp
  | badDecl x y => simp [declCandidate] at hp

theorem length_fileCandidates_eq (env : Env) (fs : TokenFile) (path : String) (file : File)
    (h : rendersSucceed env fs file) :
    (fileCandidates env fs path file).length = file.Decls.countP Decl.isFunc := by
  unfold fileCandidates
  rw [length_filterMap_eq_countP, ← countP_isFunc_enum]
  apply List.countP_congr
  intro p hp
  obtain ⟨i, decl⟩ := p
  cases decl with
  | funcDecl d =>
    obtain ⟨h1, h2, h3⟩ := h i d (List.mk_mem_enum_iff_getElem?.mp hp)
    simp only [declCandidate, candidateOf, Decl.isFunc]
    cases e1 : env.formatNode fs (.FuncDecl { d with Body := none }) with
    | error e => simp [e1, Except.toBool] at h1
    | ok t1 =>
      cases e2 : env.formatNode fs (.FuncDecl { d with Body := some placeholderBody }) with
      | error e => simp [e2, Except.toBool] at h2
      | ok t2 =>
        cases e3 : env.formatNode fs
            (.File (file.modify i (fun d => { d with Body := some placeholderBody }))) with
        | error e => simp [e3, Except.toBool] at h3
        | ok t3 => simp
  | genDecl d => simp [declCandidate, Decl.isFunc]
  | badDecl x y => simp [declCandidate, Decl.isFunc]

theorem length_callCandidates_le (env : Env) (a : WalkArgs) :
    (callCandidates env a).length ≤ callFuncCount env a := by
  unfold callCandidates callFuncCount
  cases eligible a with
  | false => simp
  | true =>
    simp only [if_true]
    cases ParseFile env a.path 0 with
    | error fragment err => simp
    | ok file fs => exact length_fileCandidates_le env fs a.path file

theorem length_callCandidates_eq (env : Env) (a : WalkArgs)
    (h : ∀ file fs, eligible a = true → ParseFile env a.path 0 = .ok file fs →
      rendersSucceed env fs file) :
    (callCandidates env a).length = callFuncCount env a := by
  unfold callCandidates callFuncCount
  cases he : eligible a with
  | false => simp
  | true =>
    simp only [if_true]
    cases hp : ParseFile env a.path 0 with
    | error fragment err => simp
    | ok file fs => exact length_fileCandidates_eq env fs a.path file (h file fs he hp)

/-- C8: the candidate list is the concatenation, over the calls of the walk
function in traversal order, of the candidates of each call: none for a call
that is not eligible or whose file does not parse, else one for each function
declaration in the declaration list of the file, in order, leaving out those
with a failed render (`callCandidates`, `fileCandidates`).  Every candidate
belongs to a function declaration of the declaration list of its file, so a
function literal never yields one; the number of candidates is at most the
number of function declarations at file scope of the eligible parsed files,
and equal to it when no render fails. -/
theorem C8_one_candidate_per_function_declaration (env : Env) (repoDir : String)
    (root : FsNode) :
    (scan env repoDir root).candidates.getD [] =
      (Walk repoDir root).flatMap (callCandidates env) ∧
    (∀ c ∈ (scan env repoDir root).candidates.getD [],
      ∃ a file fs i d, a ∈ Walk repoDir root ∧ eligible a = true ∧
        ParseFile env a.path 0 = .ok file fs ∧ file.Decls[i]? = some (.funcDecl d) ∧
        candidateOf env fs a.path file i d = some c) ∧
    ((scan env repoDir root).candidates.getD []).length ≤
      ((Walk repoDir root).map (callFuncCount env)).sum ∧
    ((∀ a file fs, a ∈ Walk repoDir root → eligible a = true →
        ParseFile env a.path 0 = .ok file fs → rendersSucceed env fs file) →
      ((scan env repoDir root).candidates.getD []).length =
        ((Walk repoDir root).map (callFuncCount env)).sum) := by
  have h : (scan env repoDir root).candidates.getD [] =
      (Walk repoDir root).flatMap (callCandidates env) := scanCalls_candidates env repoDir _
  refine ⟨h, fun c hc => candidate_origin env repoDir _ c hc, ?_, ?_⟩
  · rw [h]
    generalize Walk repoDir root = calls
    induction calls with
    | nil => simp
    | cons a rest ih =>
      simp only [List.flatMap_cons, List.length_append, List.map_cons, List.sum_cons]
      exact Nat.add_le_add (length_callCandidates_le env a) ih
  · rw [h]
    generalize Walk repoDir root = calls
    intro hr
    induction calls with
    | nil => simp
    | cons a rest ih =>
      simp only [List.flatMap_cons, List.length_append, List.map_cons, List.sum_cons]
      rw [length_callCandidates_eq env a (fun file fs he hp =>
          hr a file fs (List.mem_cons_self a rest) he hp),
        ih (fun b file fs hb he hp => hr b file fs (List.mem_cons_of_mem a hb) he hp)]

/-- Witness of C8: in the example repository every render succeeds; the three
function declarations of `a.go` and `c.go` give three candidates, the function
literal of `a.go` none.  With a printer that fails on `f`, the candidate of
`f` is left out and the one of `g`, declared after it in the same file, is
still there. -/
theorem C8_witness :
    (∀ a file fs, a ∈ Walk "repo" exampleRoot → eligible a = true →
      ParseFile exampleEnv a.path 0 = .ok file fs → rendersSucceed exampleEnv fs file) ∧
    ((scan exampleEnv "repo" exampleRoot).candidates.getD []).length =
      ((Walk "repo" exampleRoot).map (callFuncCount exampleEnv)).sum ∧
    ((Walk "repo" exampleRoot).map (callFuncCount exampleEnv)).sum = 3 ∧
    ((scan exampleEnv "repo" exampleRoot).candidates.getD []).map (fun c => c.func_name) =
      ["f", "g", "h"] ∧
    ((scan failingEnv "repo" exampleRoot).candidates.getD []).map (fun c => c.func_name) =
      ["g", "h"] :=
  ⟨fun _ _ _ _ _ _ _ _ _ => ⟨rfl, rfl, rfl⟩,
    (C8_one_candidate_per_function_declaration exampleEnv "repo" exampleRoot).2.2.2
      (fun _ _ _ _ _ _ _ _ _ => ⟨rfl, rfl, rfl⟩),
    by decide, by decide, by decide⟩

theorem flatMap_callCandidates_skip (env : Env) (pre post : List WalkArgs) (a : WalkArgs)
    (h : callCandidates env a = []) :
    (pre ++ a :: post).flatMap (callCandidates env) =
      pre.flatMap (callCandidates env) ++ post.flatMap (callCandidates env) := by
  simp [List.flatMap_append, List.flatMap_cons, h]

/-- C2: when the walk reaches an eligible file `path` whose parse fails (with
or without a tree built so far), no candidate has `path` as its `file_path`,
the candidates are those of the calls before it followed by those of the calls
after it, which is the list the same calls give with the failing one left out,
and the walk goes on: the eligible files after it are still handed to the
parser. -/
theorem C2_parse_failure_is_isolated (env : Env) (repoDir : String) (root : FsNode)
    (pre post : List WalkArgs) (path : String) (info : FileInfo) (fragment : Option File)
    (err : String)
    (hwalk : Walk repoDir root = pre ++ WalkArgs.ok path info :: post)
    (helig : eligible (.ok path info) = true)
    (hparse : ParseFile env path 0 = .error fragment err) :
    (∀ c ∈ (scan env repoDir root).candidates.getD [], c.file_path ≠ path) ∧
    (scan env repoDir root).candidates = (scanCalls env repoDir (pre ++ post)).candidates ∧
    (scan env repoDir root).candidates.getD [] =
      pre.flatMap (callCandidates env) ++ post.flatMap (callCandidates env) ∧
    (scan env repoDir root).parsed =
      (pre.filter eligible).map WalkArgs.path ++
        path :: (post.filter eligible).map WalkArgs.path := by
  have hnone : callCandidates env (.ok path info) = [] := by
    simp [callCandidates, helig, WalkArgs.path, hparse]
  refine ⟨?_, ?_, ?_, ?_⟩
  · intro c hc hpath
    obtain ⟨a, file, fs, i, d, _, _, hp, _, hcand⟩ := candidate_origin env repoDir _ c hc
    obtain ⟨_, _, _, h4, _, _, _⟩ := candidateOf_some env fs a.path file i d c hcand
    rw [← h4, hpath, hparse] at hp
    cases hp
  · unfold scan scanCalls
    rw [foldl_walkFunc_candidates, foldl_walkFunc_candidates, hwalk,
      flatMap_callCandidates_skip env pre post _ hnone, List.flatMap_append]
  · unfold scan
    rw [scanCalls_candidates, hwalk, flatMap_callCandidates_skip env pre post _ hnone]
  · unfold scan
    rw [scanCalls_parsed, hwalk]
    simp [List.filter_append, List.filter_cons, helig, WalkArgs.path]

/-- Witness of C2: in the example repository `b.go` does not parse; it stands
between `a.go` and `c.go`. -/
theorem C2_witness :
    (Walk "repo" exampleRoot =
        [.ok "repo" { IsDir := true }, .ok "repo/a.go" { IsDir := false },
            .ok "repo/a_test.go" { IsDir := false }] ++
          WalkArgs.ok "repo/b.go" { IsDir := false } ::
            [.ok "repo/c.go" { IsDir := false }, .ok "repo/sub.go" { IsDir := true }]) ∧
    eligible (.ok "repo/b.go" { IsDir := false }) = true ∧
    ParseFile exampleEnv "repo/b.go" 0 =
      .error (some brokenFile.stripComments)
        "repo/b.go:5:1: expected declaration, found MalformedFunc" ∧
    ((∀ c ∈ (scan exampleEnv "repo" exampleRoot).candidates.getD [],
        c.file_path ≠ "repo/b.go") ∧
      (scan exampleEnv "repo" exampleRoot).candidates =
        (scanCalls exampleEnv "repo"
          ([.ok "repo" { IsDir := true }, .ok "repo/a.go" { IsDir := false },
              .ok "repo/a_test.go" { IsDir := false }] ++
            [.ok "repo/c.go" { IsDir := false }, .ok "repo/sub.go" { IsDir := true }])).candidates ∧
      (scan exampleEnv "repo" exampleRoot).candidates.getD [] =
        [WalkArgs.ok "repo" { IsDir := true }, .ok "repo/a.go" { IsDir := false },
            .ok "repo/a_test.go" { IsDir := false }].flatMap (callCandidates exampleEnv) ++
          [WalkArgs.ok "repo/c.go" { IsDir := false },
            .ok "repo/sub.go" { IsDir := true }].flatMap (callCandidates exampleEnv) ∧
      (scan exampleEnv "repo" exampleRoot).parsed =
        ([WalkArgs.ok "repo" { IsDir := true }, .ok "repo/a.go" { IsDir := false },
            .ok "repo/a_test.go" { IsDir := false }].filter eligible).map WalkArgs.path ++
          "repo/b.go" ::
            ([WalkArgs.ok "repo/c.go" { IsDir := false },
              .ok "repo/sub.go" { IsDir := true }].filter eligible).map WalkArgs.path) :=
  ⟨rfl, rfl, rfl,
    C2_parse_failure_is_isolated exampleEnv "repo" exampleRoot _ _ "repo/b.go"
      { IsDir := false } (some brokenFile.stripComments)
      "repo/b.go:5:1: expected declaration, found MalformedFunc" rfl rfl rfl⟩

theorem eligible_iff (a : WalkArgs) :
    eligible a = true ↔
      ∃ info, a = .ok a.path info ∧ info.IsDir = false ∧ HasSuffix a.path ".go" = true ∧
        HasSuffix a.path "_test.go" = false := by
  cases a with
  | failed p info err => simp [eligible]
  | ok p info =>
    simp only [eligible, WalkArgs.path, WalkArgs.ok.injEq, true_and, exists_eq_left']
    cases info.IsDir <;> cases HasSuffix p ".go" <;> cases HasSuffix p "_test.go" <;> simp

/-- C4, counterexample: the directory `repo` can be listed but `os.Lstat` fails
on its entry `a.go`, a regular file; the walk function is called for it, with
the error; the entry is not a directory, its path ends in `.go` and not in
`_test.go`, and it is not handed to the parser. -/
theorem C4_counterexample :
    (∃ entry, lstatRoot = .dir "repo" none none [entry] ∧ entry.isDir = false ∧
      Join "repo" entry.name = "repo/a.go") ∧
    Walk "repo" lstatRoot =
      [.ok "repo" { IsDir := true },
        .failed "repo/a.go" none "lstat repo/a.go: permission denied"] ∧
    HasSuffix "repo/a.go" ".go" = true ∧
    HasSuffix "repo/a.go" "_test.go" = false ∧
    "repo/a.go" ∉ (scan exampleEnv "repo" lstatRoot).parsed :=
  ⟨⟨_, rfl, rfl, rfl⟩, rfl, rfl, rfl, by decide⟩

/-- C4, amended: a path is handed to the parser if and only if the walk
function is called for it without an error and with an entry that is not a
directory, and the path ends in `.go` and does not end in `_test.go`;
consequently the `file_path` of every candidate ends in `.go` and does not end
in `_test.go`. -/
theorem C4_parsed_iff_eligible (env : Env) (repoDir : String) (root : FsNode) :
    (∀ p, p ∈ (scan env repoDir root).parsed ↔
      ∃ info, WalkArgs.ok p info ∈ Walk repoDir root ∧ info.IsDir = false ∧
        HasSuffix p ".go" = true ∧ HasSuffix p "_test.go" = false) ∧
    (∀ c ∈ (scan env repoDir root).candidates.getD [],
      HasSuffix c.file_path ".go" = true ∧ HasSuffix c.file_path "_test.go" = false) := by
  constructor
  · intro p
    unfold scan
    rw [scanCalls_parsed, List.mem_map]
    constructor
    · rintro ⟨a, ha, rfl⟩
      rw [List.mem_filter] at ha
      obtain ⟨info, h1, h2, h3, h4⟩ := (eligible_iff a).mp ha.2
      exact ⟨info, h1 ▸ ha.1, h2, h3, h4⟩
    · rintro ⟨info, hmem, h2, h3, h4⟩
      refine ⟨.ok p info, ?_, rfl⟩
      rw [List.mem_filter]
      exact ⟨hmem, (eligible_iff _).mpr ⟨info, rfl, h2, h3, h4⟩⟩
  · intro c hc
    obtain ⟨a, file, fs, i, d, _, he, _, _, hcand⟩ := candidate_origin env repoDir _ c hc
    obtain ⟨_, _, _, h4, _, _, _⟩ := candidateOf_some env fs a.path file i d c hcand
    obtain ⟨_, _, _, h3, h5⟩ := (eligible_iff a).mp he
    rw [h4]
    exact ⟨h3, h5⟩

/-- C5: for a repository directory without any entry the program prints `null`
and a newline, not `[]`, and exits with code 0: `candidates` is declared as a
nil slice, nothing is appended to it, and `json.Marshal` encodes a nil slice
as `null`. -/
theorem C5_empty_repository_prints_null (env : Env) :
    (main env (fun _ => some (.dir "repo" none none []))
      ["buggengo", "rewrite-candidates", "repo"]).stdout = "null\n" ∧
    (main env (fun _ => some (.dir "repo" none none []))
      ["buggengo", "rewrite-candidates", "repo"]).stdout ≠ "[]\n" ∧
    (main env (fun _ => some (.dir "repo" none none []))
      ["buggengo", "rewrite-candidates", "repo"]).exitCode = 0 ∧
    (scan env "repo" (.dir "repo" none none [])).candidates = none :=
  ⟨rfl, fun h => absurd (show "null\n" = "[]\n" from h) (by decide), rfl, rfl⟩

/-- The standard output is `null` whenever no call of the walk contributes a
candidate, in particular when no file is eligible. -/
theorem main_prints_null_of_no_candidates (env : Env) (stat : String → Option FsNode)
    (prog repoDir : String) (root : FsNode) (hstat : stat repoDir = some root)
    (h : (Walk repoDir root).flatMap (callCandidates env) = []) :
    (main env stat [prog, "rewrite-candidates", repoDir]).stdout = "null\n" ∧
    (main env stat [prog, "rewrite-candidates", repoDir]).exitCode = 0 := by
  have hn : (scan env repoDir root).candidates = none :=
    (scanCalls_candidates_none env repoDir _).mpr h
  simp [main, hstat, hn, Marshal]

mutual
theorem walk_paths (path : String) :
    ∀ (node : FsNode) (a : WalkArgs), a ∈ walk path node →
      ∃ names : List String, a.path = names.foldl Join path
  | .file _ _, a, h => by
    rw [walk, List.mem_singleton] at h
    exact ⟨[], by rw [h]; rfl⟩
  | .dir _ _ none entries, a, h => by
    rw [walk, List.mem_cons] at h
    rcases h with h | h
    · exact ⟨[], by rw [h]; rfl⟩
    · exact walkEntries_paths path entries a h
  | .dir _ _ (some err) _, a, h => by
    rw [walk, List.mem_singleton] at h
    exact ⟨[], by rw [h]; rfl⟩
theorem walkEntries_paths (path : String) :
    ∀ (entries : List FsNode) (a : WalkArgs), a ∈ walkEntries path entries →
      ∃ names : List String, a.path = names.foldl Join path
  | [], a, h => by simp [walkEntries] at h
  | .file name (some err) :: rest, a, h => by
    rw [walkEntries, List.mem_cons] at h
    rcases h with h | h
    · exact ⟨[name], by rw [h]; rfl⟩
    · exact walkEntries_paths path rest a h
  | .dir name (some err) _ _ :: rest, a, h => by
    rw [walkEntries, List.mem_cons] at h
    rcases h with h | h
    · exact ⟨[name], by rw [h]; rfl⟩
    · exact walkEntries_paths path rest a h
  | .file name none :: rest, a, h => by
    rw [walkEntries, List.mem_append] at h
    rcases h with h | h
    · rw [walk, List.mem_singleton] at h
      exact ⟨[name], by rw [h]; rfl⟩
    · exact walkEntries_paths path rest a h
  | .dir name none none es :: rest, a, h => by
    rw [walkEntries, List.mem_append] at h
    rcases h with h | h
    · rw [walk, List.mem_cons] at h
      rcases h with h | h
      · exact ⟨[name], by rw [h]; rfl⟩
      · obtain ⟨names, hn⟩ := walkEntries_paths (Join path name) es a h
        exact ⟨name :: names, by rw [hn]; rfl⟩
    · exact walkEntries_paths path rest a h
  | .dir name none (some err) es :: rest, a, h => by
    rw [walkEntries, List.mem_append] at h
    rcases h with h | h
    · rw [walk, List.mem_singleton] at h
      exact ⟨[name], by rw [h]; rfl⟩
    · exact walkEntries_paths path rest a h
end

/-- Every path that the walk reports is the root as given, joined with the
names of entries on the way down. -/
theorem Walk_paths (root : String) (node : FsNode) (a : WalkArgs) (h : a ∈ Walk root node) :
    ∃ names : List String, a.path = names.foldl Join root := by
  unfold Walk at h
  cases hl : node.lstat with
  | some err =>
    rw [hl] at h
    simp only [List.mem_singleton] at h
    exact ⟨[], by rw [h]; rfl⟩
  | none =>
    rw [hl] at h
    exact walk_paths root node a h

/-- C6, counterexample: the root `repo` holds the file `a.go`, whose path
relative to the root is `a.go`; the candidate of its function `f` has the
`file_path` `repo/a.go`, which is not the relative path of anything below the
root. -/
theorem C6_counterexample :
    exampleCandidate ∈ (scan exampleEnv "repo" exampleRoot).candidates.getD [] ∧
    exampleCandidate.file_path = "repo/a.go" ∧
    exampleRoot.relPaths = ["a.go", "a_test.go", "b.go", "c.go", "sub.go"] ∧
    exampleCandidate.file_path ∉ exampleRoot.relPaths :=
  ⟨by decide, rfl, rfl, by decide⟩

/-- C6, amended: the `file_path` of every candidate is the path with which the
walk called the walk function for the containing file, and that path is the
root directory as given on the command line joined, by `filepath.Join`, with
the names of the entries that lead down to the file (with no name when the
root is itself the file). -/
theorem C6_file_path_is_walk_path (env : Env) (repoDir : String) (root : FsNode)
    (c : Candidate) (hc : c ∈ (scan env repoDir root).candidates.getD []) :
    (∃ info, WalkArgs.ok c.file_path info ∈ Walk repoDir root ∧ info.IsDir = false) ∧
    (∃ names : List String, c.file_path = names.foldl Join repoDir) := by
  obtain ⟨a, file, fs, i, d, ha, he, _, _, hcand⟩ := candidate_origin env repoDir _ c hc
  obtain ⟨_, _, _, h4, _, _, _⟩ := candidateOf_some env fs a.path file i d c hcand
  obtain ⟨info, h1, h2, _, _⟩ := (eligible_iff a).mp he
  obtain ⟨names, hn⟩ := Walk_paths repoDir root a ha
  rw [h4]
  exact ⟨⟨info, h1 ▸ ha, h2⟩, names, hn⟩

/-- Witness of C6: the candidate of `f` in the example repository. -/
theorem C6_witness :
    exampleCandidate ∈ (scan exampleEnv "repo" exampleRoot).candidates.getD [] ∧
    ((∃ info, WalkArgs.ok exampleCandidate.file_path info ∈ Walk "repo" exampleRoot ∧
        info.IsDir = false) ∧
      (∃ names : List String, exampleCandidate.file_path = names.foldl Join "repo")) :=
  ⟨by decide,
    C6_file_path_is_walk_path exampleEnv "repo" exampleRoot exampleCandidate (by decide)⟩

/-! ### Lines -/

theorem ParseFile_zero_ok (env : Env) (path : String) (file : File) (fs : TokenFile)
    (h : ParseFile env path 0 = .ok file fs) :
    ∃ full, env.parse path = .ok full fs ∧ file = full.stripComments := by
  unfold ParseFile at h
  cases hp : env.parse path with
  | error fragment err => simp [hp] at h
  | ok full fs0 =>
    simp only [hp, Nat.zero_and, if_true, ParseResult.ok.injEq] at h
    exact ⟨full, by rw [h.2], h.1.symm⟩

theorem stripComments_Decls_Doc (full : File) :
    ∀ decl ∈ full.stripComments.Decls, decl.Doc = none := by
  intro decl hd
  simp only [File.stripComments, List.mem_map] at hd
  obtain ⟨x, _, rfl⟩ := hd
  cases x <;> rfl

theorem setDecl_Doc (g : FuncDecl → FuncDecl) (hg : ∀ d, (g d).Doc = d.Doc) (i : Nat)
    (l : List Decl) (h : ∀ decl ∈ l, decl.Doc = none) :
    ∀ decl ∈ setDecl g i l, decl.Doc = none := by
  induction l generalizing i with
  | nil => cases i <;> simp [setDecl]
  | cons x xs ih =>
    cases i with
    | zero =>
      cases x with
      | funcDecl d =>
        intro decl hd
        simp only [setDecl, List.mem_cons] at hd
        rcases hd with hd | hd
        · rw [hd]
          have := h (.funcDecl d) (List.mem_cons_self _ _)
          simp only [Decl.Doc] at this ⊢
          rw [hg, this]
        · exact h decl (List.mem_cons_of_mem _ hd)
      | genDecl d => exact h
      | badDecl a b => exact h
    | succ i =>
      intro decl hd
      simp only [setDecl, List.mem_cons] at hd
      rcases hd with hd | hd
      · rw [hd]
        exact h x (List.mem_cons_self _ _)
      · exact ih i (fun y hy => h y (List.mem_cons_of_mem _ hy)) decl hd

/-- C10, counterexample: `a.go` has the comment `// note`, outside the body of
`g`; the parser called with mode 0 returns a tree without comments, and the
`file_src_code` of the candidate of `g` is printed from that tree: the text
has no comment, whereas the print of the tree with its comment kept, and the
placeholder in `g`, starts with the comment. -/
theorem C10_counterexample :
    exampleFile.Comments = [[{ Slash := 11, Text := "// note" }]] ∧
    ParseFile exampleEnv "repo/a.go" ParseComments = .ok exampleFile exampleLines ∧
    ParseFile exampleEnv "repo/a.go" 0 = .ok exampleFile.stripComments exampleLines ∧
    exampleFile.stripComments.Comments = [] ∧
    (placeholderTree exampleFile.stripComments 1).Comments = [] ∧
    ((scan exampleEnv "repo" commentRoot).candidates.getD []).map
        (fun c => (c.func_name, c.file_src_code)) =
      [("f", "func f() \x7b...\x7d\nfunc g() \x7b\x7d\n"),
        ("g", "func f() \x7b\x7d\nfunc g() \x7b...\x7d\n")] ∧
    exampleEnv.formatNode exampleLines (.File (placeholderTree exampleFile 1)) =
      .ok "// note\nfunc f() \x7b\x7d\nfunc g() \x7b...\x7d\n" :=
  ⟨rfl, rfl, rfl, rfl, rfl, by decide, rfl⟩

/-- C10, amended: the file parser is called with mode 0 and keeps no comment in
the syntax tree: for every candidate, the tree that is printed into
`file_src_code` is the tree of the file with every comment left out, with the
placeholder body in the candidate's declaration; its comment list is empty and
neither the file nor any declaration has a doc comment. -/
theorem C10_no_comment_in_the_printed_tree (env : Env) (repoDir : String) (root : FsNode)
    (c : Candidate) (hc : c ∈ (scan env repoDir root).candidates.getD []) :
    ∃ (full file : File) (fs : TokenFile) (i : Nat),
      env.parse c.file_path = .ok full fs ∧
      file = full.stripComments ∧
      ParseFile env c.file_path 0 = .ok file fs ∧
      env.formatNode fs (.File (placeholderTree file i)) = .ok c.file_src_code ∧
      (placeholderTree file i).Comments = [] ∧
      (placeholderTree file i).Doc = none ∧
      (∀ decl ∈ (placeholderTree file i).Decls, decl.Doc = none) := by
  obtain ⟨a, file, fs, i, d, _, _, hp, hd, hcand⟩ := candidate_origin env repoDir _ c hc
  obtain ⟨_, _, h3, h4, _, _, _⟩ := candidateOf_some env fs a.path file i d c hcand
  rw [← h4] at hp
  obtain ⟨full, hfull, hfile⟩ := ParseFile_zero_ok env c.file_path file fs hp
  refine ⟨full, file, fs, i, hfull, hfile, hp, h3, ?_, ?_, ?_⟩
  · rw [hfile]; rfl
  · rw [hfile]; rfl
  · rw [hfile]
    exact setDecl_Doc (fun funcToMod => { funcToMod with Body := some placeholderBody })
      (fun _ => rfl) i _ (stripComments_Decls_Doc full)

/-- Witness of C10: the candidate of `f` in the example repository. -/
theorem C10_witness :
    exampleCandidate ∈ (scan exampleEnv "repo" exampleRoot).candidates.getD [] ∧
    ∃ (full file : File) (fs : TokenFile) (i : Nat),
      exampleEnv.parse exampleCandidate.file_path = .ok full fs ∧
      file = full.stripComments ∧
      ParseFile exampleEnv exampleCandidate.file_path 0 = .ok file fs ∧
      exampleEnv.formatNode fs (.File (placeholderTree file i)) =
        .ok exampleCandidate.file_src_code ∧
      (placeholderTree file i).Comments = [] ∧
      (placeholderTree file i).Doc = none ∧
      (∀ decl ∈ (placeholderTree file i).Decls, decl.Doc = none) :=
  ⟨by decide,
    C10_no_comment_in_the_printed_tree exampleEnv "repo" exampleRoot exampleCandidate
      (by decide)⟩

end Buggengo
